import Mathlib

/-!
Verification of the GO OBO-to-SQLite builder (`inst/support/dogo.py`).

The Python source is shallowly embedded here.  Strings are modelled as
`List Char` (the file is read line by line, so no modelled string contains
a newline unless stated otherwise).  Python `dict`s are modelled as
association lists; Python `set`s are modelled as duplicate-free lists in
first-insertion order (Python set iteration order is unspecified, and every
property proved below is independent of the enumeration order).
-/

namespace GoDb

/-- Strings of the embedded program, as lists of characters. -/
abbrev Str := List Char

/-- Convert a Lean string literal to the embedded string type. -/
def s2l (s : String) : Str := s.data

/-- The ASCII whitespace characters recognised by Python's `str.strip()` and
by the regex class `\s` (the inputs at hand are ASCII). -/
def pyWs (c : Char) : Bool :=
  c = ' ' || c = '\t' || c = '\n' || c = '\r' || c = '\x0b' || c = '\x0c'

/-- Remove leading whitespace, as Python `str.lstrip()`. -/
def lstripWs : Str → Str
  | [] => []
  | c :: r => if pyWs c then lstripWs r else c :: r

/-- Remove trailing whitespace, as Python `str.rstrip()`. -/
def rstripWs (s : Str) : Str := (lstripWs s.reverse).reverse

/-- Python `str.strip()`. -/
def pyStrip (s : Str) : Str := rstripWs (lstripWs s)

/-- `hasPre p s` is Python `s.startswith(p)`. -/
def hasPre : Str → Str → Bool
  | [], _ => true
  | _ :: _, [] => false
  | p :: ps, c :: s => p = c && hasPre ps s

/-- `hasSuf p s` is Python `s.endswith(p)`. -/
def hasSuf (p s : Str) : Bool := hasPre p.reverse s.reverse

/-- All characters of the string are whitespace. -/
def allWs : Str → Bool
  | [] => true
  | c :: r => pyWs c && allWs r

/-- Number of occurrences of `a` in `l` (used to state "exactly once"). -/
def occurrences {α : Type} [DecidableEq α] (a : α) (l : List α) : Nat :=
  (l.filter (fun x => decide (x = a))).length

/-- A stanza slot: plain tags hold a single string, the tags of `multiTags`
hold a list of strings (mirrors the `dict`-of-`str`-or-`list` in
`parse_obo`). -/
inductive TagVal
  | single (v : Str)
  | multi (vs : List Str)
deriving DecidableEq

/-- One `[Term]` stanza: the `defaultdict` of `parse_obo`, as an association
list keyed by tag name (keys are distinct by construction; lookups read the
first binding). -/
abbrev Stanza := List (Str × TagVal)

/-- Dictionary lookup: first binding of the tag, if any. -/
def lookupTag : Stanza → Str → Option TagVal
  | [], _ => none
  | (k, v) :: r, tag => if k = tag then some v else lookupTag r tag

/-- Dictionary assignment `stanza[tag] = v`: overwrite the first binding of
`tag`, or append a new binding. -/
def updTag : Stanza → Str → TagVal → Stanza
  | [], tag, v => [(tag, v)]
  | (k, w) :: r, tag, v =>
      if k = tag then (k, v) :: r else (k, w) :: updTag r tag v

/-- `stanza[tag].append(v)` on the `defaultdict(list)`: append to the list
slot, creating it when absent.  The `single` case cannot arise from
`parse_obo` (a tag is appended only when it is in `multiTags`, and then it
is never assigned a single value); Python would raise there. -/
def appendMulti (st : Stanza) (tag : Str) (v : Str) : Stanza :=
  match lookupTag st tag with
  | some (TagVal.multi vs) => updTag st tag (TagVal.multi (vs ++ [v]))
  | some (TagVal.single _) => updTag st tag (TagVal.multi [v])
  | none => st ++ [(tag, TagVal.multi [v])]

/-- `stanza.get(tag)` for a single-valued tag (`None` when absent; the
`multi` case cannot arise for the tags this is used on). -/
def getSingle (st : Stanza) (tag : Str) : Option Str :=
  match lookupTag st tag with
  | some (TagVal.single v) => some v
  | _ => none

/-- `stanza.get(tag, [])` for a multi-valued tag. -/
def getMulti (st : Stanza) (tag : Str) : List Str :=
  match lookupTag st tag with
  | some (TagVal.multi vs) => vs
  | _ => []

/-- `stanza.get("id", "")`. -/
def getId (st : Stanza) : Str := (getSingle st (s2l "id")).getD []

/-- `t.get("namespace", "")`. -/
def getNamespace (st : Stanza) : Str := (getSingle st (s2l "namespace")).getD []

/-- The multi-valued tags of `parse_obo`. -/
def multiTags : List Str :=
  [s2l "synonym", s2l "is_a", s2l "relationship", s2l "alt_id",
   s2l "consider", s2l "replaced_by", s2l "subset", s2l "xref",
   s2l "property_value"]

/-- The string starts with `\s*!` (whitespace then a bang). -/
def bangAfterWs : Str → Bool
  | [] => false
  | c :: r => c = '!' || (pyWs c && bangAfterWs r)

/-- The string starts with a match of `\s+!` (the trailing-comment opener of
`re.sub(r"\s+!.*$", "", value)`). -/
def wsBangAt : Str → Bool
  | [] => false
  | c :: r => pyWs c && bangAfterWs r

/-- Truncate at the leftmost match of `\s+!.*$`: everything from the first
whitespace run that is followed by `!` is removed (the regex consumes the
rest of the line). -/
def stripCommentCore : Str → Str
  | [] => []
  | c :: r => if wsBangAt (c :: r) then [] else c :: stripCommentCore r

/-- `re.sub(r"\s+!.*$", "", value).strip()` from `parse_obo`. -/
def cleanValue (v : Str) : Str := pyStrip (stripCommentCore v)

/-- Python `line.partition(": ")` restricted to the found case: split at the
first occurrence of the two-character separator `": "`, returning
(before, after); `none` when the separator does not occur (`": " in line`
is false). -/
def partitionColonSpace : Str → Option (Str × Str)
  | [] => none
  | [_] => none
  | c :: c2 :: r =>
      if c = ':' ∧ c2 = ' ' then some ([], r)
      else (partitionColonSpace (c2 :: r)).map (fun p => (c :: p.1, p.2))

/-- Body-line handling inside an open stanza: a line with `": "` is split at
its first occurrence; the value is comment-stripped and trimmed; multi
tags append, other tags overwrite.  Lines without `": "` are ignored. -/
def stanzaStep (sz : Stanza) (line : Str) : Stanza :=
  match partitionColonSpace line with
  | none => sz
  | some (tag, rawv) =>
      let v := cleanValue rawv
      if tag ∈ multiTags then appendMulti sz tag v
      else updTag sz tag (TagVal.single v)

/-- Parser state of `parse_obo`: the currently open stanza (if any) and the
stanzas yielded so far. -/
structure PState where
  stanza : Option Stanza
  out : List Stanza
deriving DecidableEq

/-- Yield the open stanza, if any. -/
def flushOpt : Option Stanza → List Stanza
  | none => []
  | some sz => [sz]

/-- One iteration of the line loop of `parse_obo`. -/
def procLine (st : PState) (line : Str) : PState :=
  if hasPre (s2l "[Term]") line then
    { stanza := some [], out := st.out ++ flushOpt st.stanza }
  else if hasPre (s2l "[") line && hasSuf (s2l "]") line then
    { stanza := none, out := st.out ++ flushOpt st.stanza }
  else
    match st.stanza with
    | none => st
    | some sz => { st with stanza := some (stanzaStep sz line) }

/-- `parse_obo`: one stanza per `[Term]` block, flushed at the next marker or
at end of input.  Input lines are already `"\n"`-free (the Python code
iterates the file line by line and strips the newline). -/
def parse_obo (lines : List Str) : List Stanza :=
  let fin := lines.foldl procLine { stanza := none, out := [] }
  fin.out ++ flushOpt fin.stanza

/-- Folding the body lines of one stanza. -/
def bodyFold (body : List Str) : Stanza := body.foldl stanzaStep []

/-- The cleaned values of the body lines carrying the given tag, in file
order (the direct specification the parser is checked against). -/
def linesFor (tag : Str) (body : List Str) : List Str :=
  body.filterMap (fun L =>
    match partitionColonSpace L with
    | some (t, v) => if t = tag then some (cleanValue v) else none
    | none => none)

/-- Whether a body line carries the given tag. -/
def isTagLine (tag : Str) (L : Str) : Bool :=
  match partitionColonSpace L with
  | some (t, _) => t = tag
  | none => false

/-- The string is nonempty and starts with a whitespace character. -/
def headWs : Str → Bool
  | [] => false
  | c :: _ => pyWs c

/-- Label search of `_SYNONYM_RE` (`^"(.*?)"\s+...`): after the opening
quote, the lazy group stops at the first closing quote that is followed by
at least one whitespace character (the mandatory `\s+`; everything after it
is optional, so such a position always completes the match).  `.` does not
match a newline, so a newline before any viable closing quote makes the
whole regex fail.  Returns the label and the remainder after the closing
quote. -/
def findLabel : Str → Option (Str × Str)
  | [] => none
  | c :: r =>
      if c = '"' && headWs r then some ([], r)
      else if c = '\n' then none
      else (findLabel r).map (fun p => (c :: p.1, p.2))

/-- The scope alternatives of `_SYNONYM_RE`, in alternation order. -/
def scopeTokens : List Str :=
  [s2l "EXACT", s2l "RELATED", s2l "NARROW", s2l "BROAD", s2l "SYNONYM"]

/-- Group 2 of `_SYNONYM_RE` at the position after the whitespace run: the
first alternative, in alternation order, that is a prefix of the remaining
text (the alternation has no trailing word boundary, so a prefix
suffices), if any. -/
def scopeHit (p : Str) : Option Str :=
  if hasPre (s2l "EXACT") p then some (s2l "EXACT")
  else if hasPre (s2l "RELATED") p then some (s2l "RELATED")
  else if hasPre (s2l "NARROW") p then some (s2l "NARROW")
  else if hasPre (s2l "BROAD") p then some (s2l "BROAD")
  else if hasPre (s2l "SYNONYM") p then some (s2l "SYNONYM")
  else none

/-- `parse_synonym_tag`: match `_SYNONYM_RE` against the raw value; on a
match return (group 1, group 2 or "EXACT", 0), otherwise the whole raw
string with scope "EXACT".  The greedy `\s+` consumes the full whitespace
run after the closing quote; group 2 is then tried at that position. -/
def parse_synonym_tag (raw : Str) : Str × Str × Nat :=
  match raw with
  | c :: rest =>
      if c = '"' then
        match findLabel rest with
        | some lp => (lp.1, (scopeHit (lstripWs lp.2)).getD (s2l "EXACT"), 0)
        | none => (raw, s2l "EXACT", 0)
      else (raw, s2l "EXACT", 0)
  | [] => (raw, s2l "EXACT", 0)

/-- `\[.*?\]\s*$` holds of the string prefixed with `[`: some later `]` is
followed only by whitespace, with no newline in between (`.` does not match
newlines; `]` itself may be matched by `.`). -/
def bracketBody : Str → Bool
  | [] => false
  | c :: r => (c = ']' && allWs r) || (!(c = '\n') && bracketBody r)

/-- `\s*\[.*?\]\s*$` holds of the string (the part after the quote in the
citation regex). -/
def afterQuoteCite : Str → Bool
  | [] => false
  | c :: r => (c = '[' && bracketBody r) || (pyWs c && afterQuoteCite r)

/-- The citation regex `"\s*\[.*?\]\s*$` matches starting at the head of the
string. -/
def citeAt : Str → Bool
  | [] => false
  | c :: r => c = '"' && afterQuoteCite r

/-- `re.sub(r'"\s*\[.*?\]\s*$', '', defn)`: truncate at the leftmost match
of the citation pattern (the match runs to the end of the string, so there
is at most one). -/
def subCite : Str → Str
  | [] => []
  | c :: r => if citeAt (c :: r) then [] else c :: subCite r

/-- Python `.lstrip('"')`: remove every leading quote character. -/
def lstripQuote : Str → Str
  | [] => []
  | c :: r => if c = '"' then lstripQuote r else c :: r

/-- The `def`-tag cleanup of `build`:
`re.sub(r'"\s*\[.*?\]\s*$', '', defn).lstrip('"').strip()`. -/
def cleanDef (d : Str) : Str := pyStrip (lstripQuote (subCite d))

/-- The definition column of a term row: `None` when the `def` tag is
absent; unchanged when it is the empty string (falsy in Python); cleaned
otherwise. -/
def defnOf (t : Stanza) : Option Str :=
  match getSingle t (s2l "def") with
  | none => none
  | some d => if d = [] then some d else some (cleanDef d)

/-- `stanza.get("is_obsolete") == "true"`. -/
def isObsolete (st : Stanza) : Bool :=
  getSingle st (s2l "is_obsolete") = some (s2l "true")

/-- `go_id.startswith("GO:")` on `stanza.get("id", "")`. -/
def goIdCheck (st : Stanza) : Bool := hasPre (s2l "GO:") (getId st)

/-- The `terms` list of `build`: stanzas with a `GO:` identifier that are
not obsolete, in file order. -/
def activeTerms (sts : List Stanza) : List Stanza :=
  sts.filter (fun s => goIdCheck s && !isObsolete s)

/-- The `obsolete` list of `build`. -/
def obsoleteTerms (sts : List Stanza) : List Stanza :=
  sts.filter (fun s => goIdCheck s && isObsolete s)

/-- The set `active_ids = {t["id"] for t in terms}`, as a list; only
membership is ever used. -/
def active_ids (sts : List Stanza) : List Str := (activeTerms sts).map getId

/-- The three graph partitions (the short labels "BP", "MF", "CC"). -/
inductive NS | BP | MF | CC
deriving DecidableEq

/-- `NS_MAP.get(ns, ("??", "??"))[0]` combined with the subsequent
`if short not in parent_rows: continue`: only the three known namespaces
yield a partition. -/
def nsShort (ns : Str) : Option NS :=
  if ns = s2l "biological_process" then some NS.BP
  else if ns = s2l "molecular_function" then some NS.MF
  else if ns = s2l "cellular_component" then some NS.CC
  else none

/-- Accumulator pass for `pySplit`: `tok` is the current token, reversed. -/
def pySplitAux : Str → Str → List Str
  | [], tok => if tok = [] then [] else [tok.reverse]
  | c :: r, tok =>
      if pyWs c then
        if tok = [] then pySplitAux r []
        else tok.reverse :: pySplitAux r []
      else pySplitAux r (c :: tok)

/-- Python `str.split()` with no argument: split on whitespace runs,
dropping empty pieces. -/
def pySplit (s : Str) : List Str := pySplitAux s []

/-- The parent-table rows contributed by one active term, in emission order:
its `is_a` entries (parent = first whitespace token, relationship type
`"is_a"`), then its `relationship` entries (type = first token, parent =
second token; fewer than two tokens is dropped).  A row is emitted only if
the parent is in the active-identifier set.  An `is_a` value with no token
at all would raise `IndexError` in Python (`raw.split()[0]`); that case is
outside the behaviour claimed and is modelled as emitting nothing. -/
def termEdges (act : List Str) (t : Stanza) : List (Str × Str × Str) :=
  ((getMulti t (s2l "is_a")).filterMap (fun raw =>
      match pySplit raw with
      | [] => none
      | p :: _ => if p ∈ act then some (getId t, p, s2l "is_a") else none))
  ++ ((getMulti t (s2l "relationship")).filterMap (fun raw =>
      match pySplit raw with
      | rel :: p :: _ =>
          if p ∈ act then some (getId t, p, rel) else none
      | _ => none))

/-- `parent_rows[ns]` of `build`: rows of all active terms of that
namespace, in term order. -/
def parent_rows (sts : List Stanza) (ns : NS) : List (Str × Str × Str) :=
  ((activeTerms sts).filter
      (fun t => nsShort (getNamespace t) = some ns)).flatMap
    (termEdges (active_ids sts))

/-- `direct_children[ns][parent].append(child)` for one (child, parent)
pair: extend the first binding of the parent, or append a new binding
(`defaultdict(list)` keeps insertion order and unique keys). -/
def addChild (m : List (Str × List Str)) (p c : Str) :
    List (Str × List Str) :=
  match m with
  | [] => [(p, [c])]
  | (k, vs) :: r =>
      if k = p then (k, vs ++ [c]) :: r else (k, vs) :: addChild r p c

/-- `direct_children[ns]` of `build`: the Python code appends to it at
exactly the points where it appends a parent row, so it is the fold of the
row sequence. -/
def direct_children (sts : List Stanza) (ns : NS) : List (Str × List Str) :=
  (parent_rows sts ns).foldl (fun m r => addChild m r.2.1 r.1) []

/-- The `go_synonym` rows contributed by one active term: its text synonyms
(`secondary = NULL`, `like_go_id = 0`), then its `alt_id` rows (label and
secondary both the alt identifier, scope `"EXACT"`, `like_go_id = 1`). -/
def synRowsFor (t : Stanza) : List (Str × Str × Option Str × Str × Nat) :=
  ((getMulti t (s2l "synonym")).map (fun raw =>
      ((getId t, (parse_synonym_tag raw).1, none,
        (parse_synonym_tag raw).2.1, 0) : Str × Str × Option Str × Str × Nat)))
  ++ ((getMulti t (s2l "alt_id")).map
      (fun alt => (getId t, alt, some alt, s2l "EXACT", 1)))

/-- `syn_rows` of `build`. -/
def syn_rows (sts : List Stanza) : List (Str × Str × Option Str × Str × Nat) :=
  (activeTerms sts).flatMap synRowsFor

/-- `term_rows` of `build` (identifier, name, namespace partition,
definition). -/
def term_rows (sts : List Stanza) : List (Str × Str × Option NS × Option Str) :=
  (activeTerms sts).map (fun t =>
    (getId t, (getSingle t (s2l "name")).getD [],
     nsShort (getNamespace t), defnOf t))

/-- Outcome of the `__main__` block: `sys.exit(usage)` prints the usage
message and terminates with the non-zero status 1; otherwise
`build(sys.argv[1], sys.argv[2])` runs. -/
inductive CliAction
  | usage
  | run (inp out : Str)
deriving DecidableEq

/-- `if len(sys.argv) != 3: sys.exit(usage)` — `argv` includes the script
name, so exactly two positional arguments proceed. -/
def cliMain (argv : List Str) : CliAction :=
  match argv with
  | [_, inp, out] => CliAction.run inp out
  | _ => CliAction.usage

/-- Set insertion in first-insertion order (models `set.add`). -/
def insertNew (x : Str) (xs : List Str) : List Str :=
  if x ∈ xs then xs else xs ++ [x]

/-- `children[parent].add(ch)` on the `defaultdict(set)` of
`transitive_closure`. -/
def addChildSet (m : List (Str × List Str)) (p c : Str) :
    List (Str × List Str) :=
  match m with
  | [] => [(p, [c])]
  | (k, vs) :: r =>
      if k = p then (k, insertNew c vs) :: r else (k, vs) :: addChildSet r p c

/-- The preprocessing loop of `transitive_closure`: build the
child-set map and the `all_nodes` set from the direct-edge dict. -/
def tcPrep (de : List (Str × List Str)) :
    List (Str × List Str) × List Str :=
  de.foldl (fun acc ent =>
      ent.2.foldl
        (fun acc2 c => (addChildSet acc2.1 ent.1 c, insertNew c acc2.2))
        (acc.1, insertNew ent.1 acc.2))
    ([], [])

/-- The children-map component of `tcPrep`, on its own (the two components
of the preprocessing loop are updated independently; `tcPrep` is proved
equal to the pair of the two single-component folds below). -/
def childMapOf (de : List (Str × List Str)) : List (Str × List Str) :=
  de.foldl (fun m e => e.2.foldl (fun mm c => addChildSet mm e.1 c) m) []

/-- The `all_nodes` component of `tcPrep`, on its own. -/
def nodesOf (de : List (Str × List Str)) : List Str :=
  de.foldl
    (fun ns e => e.2.foldl (fun acc c => insertNew c acc) (insertNew e.1 ns))
    []

/-- `children.get(node, [])` (first binding, or empty). -/
def chOf (m : List (Str × List Str)) (p : Str) : List Str :=
  match m with
  | [] => []
  | (k, vs) :: r => if k = p then vs else chOf r p

/-- The `while queue:` loop of one ancestor's traversal. `queue.pop()`
removes the last element; an unvisited node is recorded in `visited`, its
pair appended, and its children pushed.  The loop is fuelled; the fuel-out
branch is never reached when the fuel is at least
`queue.length + restWeight m visited` (proved below). -/
def closLoop (m : List (Str × List Str)) (anc : Str) :
    Nat → List Str → List Str → List (Str × Str) → List (Str × Str)
  | 0, _, _, pairs => pairs
  | fuel + 1, visited, queue, pairs =>
      match queue.getLast? with
      | none => pairs
      | some node =>
          if node ∈ visited then
            closLoop m anc fuel visited queue.dropLast pairs
          else
            closLoop m anc fuel (node :: visited)
              (queue.dropLast ++ chOf m node) (pairs ++ [(anc, node)])

/-- Total number of child-list entries of the map. -/
def totalWeight (m : List (Str × List Str)) : Nat :=
  (m.map (fun kv => kv.2.length)).sum

/-- Child-list entries of keys not yet visited (the loop measure's second
component). -/
def restWeight (m : List (Str × List Str)) (V : List Str) : Nat :=
  ((m.filter (fun kv => decide (kv.1 ∉ V))).map (fun kv => kv.2.length)).sum

/-- A fuel amount sufficient for every per-ancestor traversal of the map. -/
def tcFuel (m : List (Str × List Str)) : Nat := 2 * totalWeight m + 1

/-- `transitive_closure` with explicit fuel for the inner loops. -/
def transitive_closure_fuel (de : List (Str × List Str)) (fuel : Nat) :
    List (Str × Str) :=
  (tcPrep de).2.foldl
    (fun pairs a => closLoop (tcPrep de).1 a fuel [] (chOf (tcPrep de).1 a) pairs)
    []

/-- `transitive_closure`: all (ancestor, descendant) pairs, one traversal
per node of `all_nodes`, accumulating into a single list. -/
def transitive_closure (de : List (Str × List Str)) : List (Str × Str) :=
  transitive_closure_fuel de (tcFuel (tcPrep de).1)

/-- One pair of the per-ancestor traversal run with empty accumulators. -/
def ancBlock (m : List (Str × List Str)) (a : Str) (fuel : Nat) :
    List (Str × Str) :=
  closLoop m a fuel [] (chOf m a) []

/-- The direct-edge relation of an input dict of `transitive_closure`. -/
def EdgeRel (de : List (Str × List Str)) (p c : Str) : Prop :=
  ∃ cs, (p, cs) ∈ de ∧ c ∈ cs

/-- The edge relation of the built child-set map. -/
def EdgeM (m : List (Str × List Str)) (p c : Str) : Prop := c ∈ chOf m p

/-- Reachability via one or more direct edges. -/
def Reach (de : List (Str × List Str)) (a t : Str) : Prop :=
  Relation.TransGen (EdgeRel de) a t

/-- An edge whose target is outside the blocking set (used to characterise
what a traversal with an initial visited set can still reach). -/
def StepA (m : List (Str × List Str)) (V : List Str) (a b : Str) : Prop :=
  EdgeM m a b ∧ b ∉ V

/-! ### Generic list lemmas -/

theorem occurrences_eq_zero_of_not_mem {α : Type} [DecidableEq α] {a : α}
    {l : List α} (h : a ∉ l) : occurrences a l = 0 := by
  induction l with
  | nil => rfl
  | cons b t ih =>
      have hba : ¬(b = a) := fun e => h (e ▸ List.mem_cons_self b t)
      simp only [occurrences, List.filter_cons, decide_eq_true_eq, hba,
        if_false]
      exact ih (fun ht => h (List.mem_cons_of_mem b ht))

theorem occurrences_eq_one_of_nodup_mem {α : Type} [DecidableEq α] {a : α}
    {l : List α} (hn : l.Nodup) (hm : a ∈ l) : occurrences a l = 1 := by
  induction l with
  | nil => cases hm
  | cons b t ih =>
      rcases List.nodup_cons.mp hn with ⟨hbt, hnt⟩
      by_cases hba : b = a
      · subst hba
        have h0 : occurrences b t = 0 := occurrences_eq_zero_of_not_mem hbt
        have hcons : occurrences b (b :: t) = occurrences b t + 1 := by
          simp [occurrences, List.filter_cons]
        omega
      · have hat : a ∈ t := by
          rcases List.mem_cons.mp hm with h | h
          · exact absurd h.symm hba
          · exact h
        simp only [occurrences, List.filter_cons, decide_eq_true_eq, hba,
          if_false]
        exact ih hnt hat

theorem occurrences_append {α : Type} [DecidableEq α] (a : α)
    (l1 l2 : List α) :
    occurrences a (l1 ++ l2) = occurrences a l1 + occurrences a l2 := by
  simp [occurrences, List.filter_append]

theorem occurrences_map_inj {α β : Type} [DecidableEq α] [DecidableEq β]
    {f : α → β} (hf : Function.Injective f) (a : α) (l : List α) :
    occurrences (f a) (l.map f) = occurrences a l := by
  induction l with
  | nil => rfl
  | cons b t ih =>
      have hd : decide (f b = f a) = decide (b = a) := by
        by_cases hba : b = a
        · simp [hba]
        · have hfb : ¬f b = f a := fun h => hba (hf h)
          simp [hba, hfb]
      simp only [occurrences, List.map_cons, List.filter_cons, hd] at ih ⊢
      by_cases hba : b = a
      · simp only [decide_eq_true_eq, if_pos hba, List.length_cons]
        omega
      · simp only [decide_eq_true_eq, if_neg hba]
        exact ih

theorem mem_insertNew {x y : Str} {xs : List Str} :
    x ∈ insertNew y xs ↔ x = y ∨ x ∈ xs := by
  unfold insertNew
  by_cases h : y ∈ xs
  · simp only [if_pos h]
    constructor
    · exact Or.inr
    · rintro (rfl | hx)
      · exact h
      · exact hx
  · simp [if_neg h, List.mem_append, or_comm]

theorem nodup_insertNew {y : Str} {xs : List Str} (h : xs.Nodup) :
    (insertNew y xs).Nodup := by
  unfold insertNew
  by_cases hy : y ∈ xs
  · simpa [if_pos hy]
  · simpa [if_neg hy, List.nodup_append] using ⟨h, by simpa using hy⟩

theorem getLast?_some_decomp {α : Type} {l : List α} {x : α}
    (h : l.getLast? = some x) : l = l.dropLast ++ [x] :=
  (List.dropLast_append_getLast? x h).symm

/-! ### The built children map and node set of `transitive_closure` -/

theorem chOf_addChildSet (m : List (Str × List Str)) (p c q : Str) :
    chOf (addChildSet m p c) q =
      if q = p then insertNew c (chOf m p) else chOf m q := by
  induction m with
  | nil =>
      by_cases hqp : q = p
      · subst hqp; simp [addChildSet, chOf, insertNew]
      · have hpq : ¬p = q := fun e => hqp (Eq.symm e)
        simp [addChildSet, chOf, hqp, hpq]
  | cons kv r ih =>
      obtain ⟨k, vs⟩ := kv
      by_cases hkp : k = p
      · subst hkp
        by_cases hqk : q = k
        · subst hqk; simp [addChildSet, chOf]
        · have hkq : ¬k = q := fun e => hqk (Eq.symm e)
          simp [addChildSet, chOf, hqk, hkq]
      · by_cases hqk : q = k
        · subst hqk
          have hqp : ¬q = p := fun e => hkp e
          simp [addChildSet, chOf, hkp, hqp]
        · have hkq : ¬k = q := fun e => hqk (Eq.symm e)
          simp only [addChildSet, if_neg hkp, chOf, if_neg hkq, ih]

theorem foldl_pair {α β γ : Type} (f : α → γ → α) (g : β → γ → β) :
    ∀ (l : List γ) (a : α) (b : β),
      l.foldl (fun p c => (f p.1 c, g p.2 c)) (a, b) =
        (l.foldl f a, l.foldl g b) := by
  intro l
  induction l with
  | nil => intro a b; rfl
  | cons c t ih => intro a b; simpa using ih (f a c) (g b c)

theorem mem_chOf_addAllSet (cs : List Str) :
    ∀ (m : List (Str × List Str)) (p q x : Str),
      x ∈ chOf (cs.foldl (fun mm c => addChildSet mm p c) m) q ↔
        x ∈ chOf m q ∨ (q = p ∧ x ∈ cs) := by
  induction cs with
  | nil => intro m p q x; simp
  | cons c t ih =>
      intro m p q x
      simp only [List.foldl_cons]
      rw [ih (addChildSet m p c) p q x, chOf_addChildSet]
      by_cases hqp : q = p
      · rw [if_pos hqp]
        simp only [mem_insertNew, List.mem_cons, hqp, true_and]
        tauto
      · simp [hqp]

theorem mem_nodesAdd (cs : List Str) :
    ∀ (ns : List Str) (x : Str),
      x ∈ cs.foldl (fun acc c => insertNew c acc) ns ↔ x ∈ ns ∨ x ∈ cs := by
  induction cs with
  | nil => intro ns x; simp
  | cons c t ih =>
      intro ns x
      simp only [List.foldl_cons]
      rw [ih (insertNew c ns) x, mem_insertNew]
      simp only [List.mem_cons]
      tauto

theorem nodup_nodesAdd (cs : List Str) :
    ∀ (ns : List Str), ns.Nodup →
      (cs.foldl (fun acc c => insertNew c acc) ns).Nodup := by
  induction cs with
  | nil => intro ns h; exact h
  | cons c t ih => intro ns h; exact ih _ (nodup_insertNew h)

theorem EdgeRel_cons (e : Str × List Str) (de : List (Str × List Str))
    (p c : Str) :
    EdgeRel (e :: de) p c ↔ (e.1 = p ∧ c ∈ e.2) ∨ EdgeRel de p c := by
  constructor
  · rintro ⟨cs, hmem, hc⟩
    rcases List.mem_cons.mp hmem with h | h
    · left
      have h1 : e.1 = p := by rw [← h]
      have h2 : e.2 = cs := by rw [← h]
      exact ⟨h1, h2 ▸ hc⟩
    · exact Or.inr ⟨cs, h, hc⟩
  · rintro (⟨h1, h2⟩ | ⟨cs, hmem, hc⟩)
    · exact ⟨e.2, by simp [← h1], h2⟩
    · exact ⟨cs, List.mem_cons_of_mem _ hmem, hc⟩

theorem tcPrep_step (acc : List (Str × List Str) × List Str)
    (ent : Str × List Str) :
    ent.2.foldl
        (fun acc2 c => (addChildSet acc2.1 ent.1 c, insertNew c acc2.2))
        (acc.1, insertNew ent.1 acc.2) =
      (ent.2.foldl (fun mm c => addChildSet mm ent.1 c) acc.1,
       ent.2.foldl (fun ns c => insertNew c ns) (insertNew ent.1 acc.2)) :=
  foldl_pair (fun mm c => addChildSet mm ent.1 c)
    (fun ns c => insertNew c ns) ent.2 acc.1 (insertNew ent.1 acc.2)

theorem tcPrep_eq_aux (de : List (Str × List Str)) :
    ∀ (acc : List (Str × List Str) × List Str),
      de.foldl (fun a ent =>
          ent.2.foldl
            (fun acc2 c => (addChildSet acc2.1 ent.1 c, insertNew c acc2.2))
            (a.1, insertNew ent.1 a.2)) acc =
        (de.foldl (fun m e => e.2.foldl (fun mm c => addChildSet mm e.1 c) m)
            acc.1,
         de.foldl
            (fun ns e =>
              e.2.foldl (fun a c => insertNew c a) (insertNew e.1 ns))
            acc.2) := by
  induction de with
  | nil => intro acc; rfl
  | cons e t ih =>
      intro acc
      simp only [List.foldl_cons]
      rw [tcPrep_step acc e, ih]

theorem tcPrep_eq (de : List (Str × List Str)) :
    tcPrep de = (childMapOf de, nodesOf de) := by
  unfold tcPrep childMapOf nodesOf
  exact tcPrep_eq_aux de ([], [])

theorem mem_childMapOf_aux (de : List (Str × List Str)) :
    ∀ (m0 : List (Str × List Str)) (q x : Str),
      x ∈ chOf
          (de.foldl
            (fun m e => e.2.foldl (fun mm c => addChildSet mm e.1 c) m) m0)
          q ↔
        x ∈ chOf m0 q ∨ EdgeRel de q x := by
  induction de with
  | nil =>
      intro m0 q x
      simp [EdgeRel]
  | cons e t ih =>
      intro m0 q x
      simp only [List.foldl_cons]
      rw [ih, mem_chOf_addAllSet, EdgeRel_cons]
      tauto

theorem mem_tcPrep_children (de : List (Str × List Str)) (q x : Str) :
    x ∈ chOf (tcPrep de).1 q ↔ EdgeRel de q x := by
  rw [tcPrep_eq]
  have h := mem_childMapOf_aux de [] q x
  simpa [childMapOf, chOf] using h

theorem EdgeM_tcPrep (de : List (Str × List Str)) (q x : Str) :
    EdgeM (tcPrep de).1 q x ↔ EdgeRel de q x :=
  mem_tcPrep_children de q x

theorem mem_nodesOf_aux (de : List (Str × List Str)) :
    ∀ (ns : List Str) (x : Str),
      x ∈ de.foldl
            (fun a e =>
              e.2.foldl (fun a2 c => insertNew c a2) (insertNew e.1 a)) ns ↔
        x ∈ ns ∨ (∃ cs, (x, cs) ∈ de) ∨ ∃ p cs, (p, cs) ∈ de ∧ x ∈ cs := by
  induction de with
  | nil => intro ns x; simp
  | cons e t ih =>
      intro ns x
      simp only [List.foldl_cons]
      rw [ih, mem_nodesAdd, mem_insertNew]
      constructor
      · rintro (((rfl | h) | h) | h | h)
        · exact Or.inr (Or.inl ⟨e.2, by simp⟩)
        · exact Or.inl h
        · exact Or.inr (Or.inr ⟨e.1, e.2, by simp, h⟩)
        · rcases h with ⟨cs, hcs⟩
          exact Or.inr (Or.inl ⟨cs, List.mem_cons_of_mem _ hcs⟩)
        · rcases h with ⟨p, cs, hcs, hx⟩
          exact Or.inr (Or.inr ⟨p, cs, List.mem_cons_of_mem _ hcs, hx⟩)
      · rintro (h | ⟨cs, hmem⟩ | ⟨p, cs, hmem, hx⟩)
        · exact Or.inl (Or.inl (Or.inr h))
        · rcases List.mem_cons.mp hmem with he | he
          · have h1 : x = e.1 := congrArg Prod.fst he
            exact Or.inl (Or.inl (Or.inl h1))
          · exact Or.inr (Or.inl ⟨cs, he⟩)
        · rcases List.mem_cons.mp hmem with he | he
          · have h2 : cs = e.2 := congrArg Prod.snd he
            exact Or.inl (Or.inr (h2 ▸ hx))
          · exact Or.inr (Or.inr ⟨p, cs, he, hx⟩)

theorem mem_tcPrep_nodes (de : List (Str × List Str)) (x : Str) :
    x ∈ (tcPrep de).2 ↔
      (∃ cs, (x, cs) ∈ de) ∨ ∃ p cs, (p, cs) ∈ de ∧ x ∈ cs := by
  rw [tcPrep_eq]
  have h := mem_nodesOf_aux de [] x
  simpa [nodesOf] using h

theorem nodup_nodesOf_aux (de : List (Str × List Str)) :
    ∀ (ns : List Str), ns.Nodup →
      (de.foldl
        (fun a e =>
          e.2.foldl (fun a2 c => insertNew c a2) (insertNew e.1 a)) ns).Nodup := by
  induction de with
  | nil => intro ns h; exact h
  | cons e t ih =>
      intro ns h
      exact ih _ (nodup_nodesAdd _ _ (nodup_insertNew h))

theorem nodup_tcPrep_nodes (de : List (Str × List Str)) :
    (tcPrep de).2.Nodup := by
  rw [tcPrep_eq]
  exact nodup_nodesOf_aux de [] List.nodup_nil

/-! ### The traversal loop: measure, fuel, and characterisation -/

theorem restWeight_nil (m : List (Str × List Str)) :
    restWeight m [] = totalWeight m := by
  unfold restWeight totalWeight
  have h : m.filter (fun kv => decide (kv.1 ∉ ([] : List Str))) = m := by
    apply List.filter_eq_self.mpr
    intro kv _
    simp
  rw [h]

theorem restWeight_cons_le (m : List (Str × List Str)) (d : Str)
    (V : List Str) : restWeight m (d :: V) ≤ restWeight m V := by
  induction m with
  | nil => simp [restWeight]
  | cons kv r ih =>
      unfold restWeight at ih ⊢
      simp only [List.filter_cons, decide_eq_true_eq]
      by_cases h2 : kv.1 ∈ V
      · have h1 : kv.1 ∈ d :: V := List.mem_cons_of_mem _ h2
        rw [if_neg (not_not_intro h1), if_neg (not_not_intro h2)]
        exact ih
      · by_cases h1 : kv.1 ∈ d :: V
        · rw [if_neg (not_not_intro h1), if_pos h2]
          simp only [List.map_cons, List.sum_cons]
          omega
        · rw [if_pos h1, if_pos h2]
          simp only [List.map_cons, List.sum_cons]
          omega

theorem restWeight_drop (m : List (Str × List Str)) {d : Str} {V : List Str}
    (hd : d ∉ V) :
    restWeight m (d :: V) + (chOf m d).length ≤ restWeight m V := by
  induction m with
  | nil => simp [restWeight, chOf]
  | cons kv r ih =>
      obtain ⟨k, vs⟩ := kv
      by_cases hkd : k = d
      · subst hkd
        have hch : chOf ((k, vs) :: r) k = vs := by simp [chOf]
        rw [hch]
        unfold restWeight
        simp only [List.filter_cons, decide_eq_true_eq]
        have hmem : (k, vs).1 ∈ k :: V := List.mem_cons_self _ _
        rw [if_neg (not_not_intro hmem), if_pos (show (k, vs).1 ∉ V from hd)]
        simp only [List.map_cons, List.sum_cons]
        have hle := restWeight_cons_le r k V
        unfold restWeight at hle
        omega
      · have hch : chOf ((k, vs) :: r) d = chOf r d := by simp [chOf, hkd]
        rw [hch]
        unfold restWeight at ih ⊢
        simp only [List.filter_cons, decide_eq_true_eq]
        by_cases hkV : k ∈ V
        · have h1 : (k, vs).1 ∈ d :: V := List.mem_cons_of_mem _ hkV
          rw [if_neg (not_not_intro h1), if_neg (not_not_intro hkV)]
          exact ih
        · have h1 : (k, vs).1 ∉ d :: V := by
            intro h
            rcases List.mem_cons.mp h with h | h
            exacts [hkd h, hkV h]
          rw [if_pos h1, if_pos hkV]
          simp only [List.map_cons, List.sum_cons]
          omega

theorem chOf_length_le_totalWeight (m : List (Str × List Str)) (a : Str) :
    (chOf m a).length ≤ totalWeight m := by
  induction m with
  | nil => simp [chOf, totalWeight]
  | cons kv r ih =>
      obtain ⟨k, vs⟩ := kv
      by_cases hk : k = a
      · subst hk
        have hch : chOf ((k, vs) :: r) k = vs := by simp [chOf]
        rw [hch]
        unfold totalWeight
        simp only [List.map_cons, List.sum_cons]
        omega
      · have hch : chOf ((k, vs) :: r) a = chOf r a := by simp [chOf, hk]
        rw [hch]
        unfold totalWeight at ih ⊢
        simp only [List.map_cons, List.sum_cons]
        omega

theorem stepA_mono {m : List (Str × List Str)} {d : Str} {V : List Str}
    {a b : Str} (h : StepA m (d :: V) a b) : StepA m V a b :=
  ⟨h.1, fun hv => h.2 (List.mem_cons_of_mem _ hv)⟩

theorem avoidReach_mono {m : List (Str × List Str)} {d : Str} {V : List Str}
    {q n : Str} (h : Relation.ReflTransGen (StepA m (d :: V)) q n) :
    Relation.ReflTransGen (StepA m V) q n :=
  Relation.ReflTransGen.mono (fun _ _ => stepA_mono) h

/-- Splitting a visited-avoiding path at a newly visited node `d`: either the
path avoids `d` altogether, or its tail after the last visit to `d` starts
with an edge out of `d` and avoids `d` from then on. -/
theorem avoid_split (m : List (Str × List Str)) (V : List Str) (d : Str)
    {q n : Str} (h : Relation.ReflTransGen (StepA m V) q n) :
    n ≠ d →
      (q ≠ d ∧ Relation.ReflTransGen (StepA m (d :: V)) q n) ∨
      (∃ y, EdgeM m d y ∧ y ∉ (d :: V) ∧
        Relation.ReflTransGen (StepA m (d :: V)) y n) := by
  induction h with
  | refl =>
      intro hn
      exact Or.inl ⟨hn, Relation.ReflTransGen.refl⟩
  | @tail b c hqb hbc ih =>
      intro hn
      by_cases hbd : b = d
      · subst hbd
        refine Or.inr ⟨c, hbc.1, ?_, Relation.ReflTransGen.refl⟩
        intro hmem
        rcases List.mem_cons.mp hmem with h | h
        exacts [hn h, hbc.2 h]
      · have hcV : c ∉ d :: V := by
          intro hmem
          rcases List.mem_cons.mp hmem with h | h
          exacts [hn h, hbc.2 h]
        rcases ih hbd with ⟨hqd, hp⟩ | ⟨y, hey, hyn, hp⟩
        · exact Or.inl ⟨hqd, hp.tail ⟨hbc.1, hcV⟩⟩
        · exact Or.inr ⟨y, hey, hyn, hp.tail ⟨hbc.1, hcV⟩⟩

theorem avoid_nil_iff {m : List (Str × List Str)} {q n : Str} :
    Relation.ReflTransGen (StepA m []) q n ↔
      Relation.ReflTransGen (EdgeM m) q n := by
  constructor
  · exact Relation.ReflTransGen.mono (fun _ _ h => h.1)
  · exact Relation.ReflTransGen.mono
      (fun _ b h => ⟨h, List.not_mem_nil b⟩)

/-- What one fuelled traversal computes: the result extends the pair
accumulator by one pair per newly visited node; the new nodes are exactly
those outside the initial visited set that are reachable from an
unvisited queue entry along edges avoiding the initial visited set, each
exactly once. -/
theorem closLoop_char (m : List (Str × List Str)) (anc : Str) :
    ∀ (fuel : Nat) (V Q : List Str) (P : List (Str × Str)),
      Q.length + restWeight m V ≤ fuel →
      ∃ L : List Str,
        closLoop m anc fuel V Q P = P ++ L.map (fun n => (anc, n)) ∧
        L.Nodup ∧
        (∀ n, n ∈ L ↔ (n ∉ V ∧ ∃ q, q ∈ Q ∧ q ∉ V ∧
            Relation.ReflTransGen (StepA m V) q n)) := by
  intro fuel
  induction fuel with
  | zero =>
      intro V Q P hf
      have hQ : Q = [] := List.length_eq_zero.mp (by omega)
      subst hQ
      exact ⟨[], by simp [closLoop], List.nodup_nil, fun n => by simp⟩
  | succ fuel ih =>
      intro V Q P hf
      cases hq : Q.getLast? with
      | none =>
          have hQ : Q = [] := List.getLast?_eq_none_iff.mp hq
          subst hQ
          exact ⟨[], by simp [closLoop], List.nodup_nil, fun n => by simp⟩
      | some node =>
          have hsplit : Q = Q.dropLast ++ [node] := getLast?_some_decomp hq
          have hlen : Q.length = Q.dropLast.length + 1 := by
            conv_lhs => rw [hsplit]
            simp
          by_cases hv : node ∈ V
          · have hcall : closLoop m anc (fuel + 1) V Q P
                = closLoop m anc fuel V Q.dropLast P := by
              simp [closLoop, hq, hv]
            obtain ⟨L, hL1, hL2, hL3⟩ := ih V Q.dropLast P (by omega)
            refine ⟨L, by rw [hcall, hL1], hL2, fun n => ?_⟩
            rw [hL3 n]
            constructor
            · rintro ⟨hnV, q, hqm, hqV, hp⟩
              exact ⟨hnV, q,
                by rw [hsplit]; exact List.mem_append_left _ hqm, hqV, hp⟩
            · rintro ⟨hnV, q, hqm, hqV, hp⟩
              refine ⟨hnV, q, ?_, hqV, hp⟩
              rw [hsplit] at hqm
              rcases List.mem_append.mp hqm with h | h
              · exact h
              · exact absurd ((List.mem_singleton.mp h) ▸ hv) hqV
          · have hcall : closLoop m anc (fuel + 1) V Q P
                = closLoop m anc fuel (node :: V) (Q.dropLast ++ chOf m node)
                    (P ++ [(anc, node)]) := by
              simp [closLoop, hq, hv]
            have hdropw := restWeight_drop m hv
            have hmeas : (Q.dropLast ++ chOf m node).length
                + restWeight m (node :: V) ≤ fuel := by
              simp only [List.length_append]
              omega
            obtain ⟨L2, hL1, hL2, hL3⟩ :=
              ih (node :: V) (Q.dropLast ++ chOf m node)
                (P ++ [(anc, node)]) hmeas
            have hnode_not : node ∉ L2 :=
              fun hmem => ((hL3 node).mp hmem).1 (List.mem_cons_self _ _)
            refine ⟨node :: L2, ?_,
              List.nodup_cons.mpr ⟨hnode_not, hL2⟩, fun n => ?_⟩
            · rw [hcall, hL1]; simp
            · constructor
              · intro hmem
                rcases List.mem_cons.mp hmem with heq | hmem2
                · subst heq
                  exact ⟨hv, n, by rw [hsplit]; simp, hv,
                    Relation.ReflTransGen.refl⟩
                · obtain ⟨hnV2, q2, hq2m, hq2V2, hp2⟩ := (hL3 n).mp hmem2
                  have hnV : n ∉ V :=
                    fun h => hnV2 (List.mem_cons_of_mem _ h)
                  rcases List.mem_append.mp hq2m with hq2d | hq2c
                  · exact ⟨hnV, q2,
                      by rw [hsplit]; exact List.mem_append_left _ hq2d,
                      fun h => hq2V2 (List.mem_cons_of_mem _ h),
                      avoidReach_mono hp2⟩
                  · exact ⟨hnV, node, by rw [hsplit]; simp, hv,
                      Relation.ReflTransGen.head
                        ⟨hq2c, fun h => hq2V2 (List.mem_cons_of_mem _ h)⟩
                        (avoidReach_mono hp2)⟩
              · rintro ⟨hnV, q, hqm, hqV, hp⟩
                by_cases hnn : n = node
                · exact hnn ▸ List.mem_cons_self _ _
                · refine List.mem_cons_of_mem _ ?_
                  rcases avoid_split m V node hp hnn with
                    ⟨hqd, hp2⟩ | ⟨y, hey, hyn, hp2⟩
                  · have hqdl : q ∈ Q.dropLast := by
                      rw [hsplit] at hqm
                      rcases List.mem_append.mp hqm with h | h
                      · exact h
                      · exact absurd (List.mem_singleton.mp h) hqd
                    refine (hL3 n).mpr
                      ⟨?_, q, List.mem_append_left _ hqdl, ?_, hp2⟩
                    · intro h
                      rcases List.mem_cons.mp h with h | h
                      exacts [hnn h, hnV h]
                    · intro h
                      rcases List.mem_cons.mp h with h | h
                      exacts [hqd h, hqV h]
                  · refine (hL3 n).mpr
                      ⟨?_, y, List.mem_append_right _ hey, hyn, hp2⟩
                    intro h
                    rcases List.mem_cons.mp h with h | h
                    exacts [hnn h, hnV h]

theorem closLoop_append (m : List (Str × List Str)) (anc : Str) :
    ∀ (fuel : Nat) (V Q : List Str) (P : List (Str × Str)),
      closLoop m anc fuel V Q P = P ++ closLoop m anc fuel V Q [] := by
  intro fuel
  induction fuel with
  | zero => intro V Q P; simp [closLoop]
  | succ fuel ih =>
      intro V Q P
      cases hq : Q.getLast? with
      | none => simp [closLoop, hq]
      | some node =>
          by_cases hv : node ∈ V
          · have e1 : ∀ (R : List (Str × Str)),
                closLoop m anc (fuel + 1) V Q R
                  = closLoop m anc fuel V Q.dropLast R := by
              intro R; simp [closLoop, hq, hv]
            rw [e1, e1, ih]
          · have e1 : ∀ (R : List (Str × Str)),
                closLoop m anc (fuel + 1) V Q R
                  = closLoop m anc fuel (node :: V)
                      (Q.dropLast ++ chOf m node) (R ++ [(anc, node)]) := by
              intro R; simp [closLoop, hq, hv]
            rw [e1, e1, ih _ _ (P ++ [(anc, node)]),
              ih _ _ ([] ++ [(anc, node)])]
            simp

theorem closLoop_stable (m : List (Str × List Str)) (anc : Str) :
    ∀ (f1 f2 : Nat) (V Q : List Str) (P : List (Str × Str)),
      Q.length + restWeight m V ≤ f1 → Q.length + restWeight m V ≤ f2 →
      closLoop m anc f1 V Q P = closLoop m anc f2 V Q P := by
  intro f1
  induction f1 with
  | zero =>
      intro f2 V Q P h1 _
      have hQ : Q = [] := List.length_eq_zero.mp (by omega)
      subst hQ
      cases f2 <;> simp [closLoop]
  | succ f1 ih =>
      intro f2 V Q P h1 h2
      cases f2 with
      | zero =>
          have hQ : Q = [] := List.length_eq_zero.mp (by omega)
          subst hQ
          simp [closLoop]
      | succ f2 =>
          cases hq : Q.getLast? with
          | none => simp [closLoop, hq]
          | some node =>
              have hsplit : Q = Q.dropLast ++ [node] := getLast?_some_decomp hq
              have hlen : Q.length = Q.dropLast.length + 1 := by
                conv_lhs => rw [hsplit]
                simp
              by_cases hv : node ∈ V
              · have e1 : closLoop m anc (f1 + 1) V Q P
                    = closLoop m anc f1 V Q.dropLast P := by
                  simp [closLoop, hq, hv]
                have e2 : closLoop m anc (f2 + 1) V Q P
                    = closLoop m anc f2 V Q.dropLast P := by
                  simp [closLoop, hq, hv]
                rw [e1, e2]
                exact ih f2 V Q.dropLast P (by omega) (by omega)
              · have hdropw := restWeight_drop m hv
                have e1 : closLoop m anc (f1 + 1) V Q P
                    = closLoop m anc f1 (node :: V)
                        (Q.dropLast ++ chOf m node) (P ++ [(anc, node)]) := by
                  simp [closLoop, hq, hv]
                have e2 : closLoop m anc (f2 + 1) V Q P
                    = closLoop m anc f2 (node :: V)
                        (Q.dropLast ++ chOf m node) (P ++ [(anc, node)]) := by
                  simp [closLoop, hq, hv]
                rw [e1, e2]
                refine ih f2 _ _ _ ?_ ?_ <;>
                  · simp only [List.length_append]
                    omega

theorem tcFuel_ok (m : List (Str × List Str)) (a : Str) :
    (chOf m a).length + restWeight m [] ≤ tcFuel m := by
  have h1 := chOf_length_le_totalWeight m a
  rw [restWeight_nil]
  unfold tcFuel
  omega

/-- Per-ancestor traversal: duplicate-free, and its pairs are exactly
(ancestor, descendant) for descendants reachable via one or more edges. -/
theorem ancBlock_spec (m : List (Str × List Str)) (a : Str) (fuel : Nat)
    (hf : (chOf m a).length + restWeight m [] ≤ fuel) :
    (ancBlock m a fuel).Nodup ∧
    ∀ x y, ((x, y) ∈ ancBlock m a fuel ↔
      x = a ∧ Relation.TransGen (EdgeM m) a y) := by
  obtain ⟨L, h1, h2, h3⟩ := closLoop_char m a fuel [] (chOf m a) [] hf
  have hblock : ancBlock m a fuel = L.map (fun n => (a, n)) := by
    unfold ancBlock
    rw [h1]
    simp
  constructor
  · rw [hblock]
    exact h2.map (fun n1 n2 h => by simpa using h)
  · intro x y
    rw [hblock]
    constructor
    · intro hm
      rcases List.mem_map.mp hm with ⟨n, hn, heq⟩
      have hx : a = x := congrArg Prod.fst heq
      have hy : n = y := congrArg Prod.snd heq
      subst hx
      subst hy
      obtain ⟨-, q, hq, -, hp⟩ := (h3 n).mp hn
      exact ⟨rfl,
        Relation.TransGen.head'_iff.mpr ⟨q, hq, avoid_nil_iff.mp hp⟩⟩
    · rintro ⟨rfl, hreach⟩
      obtain ⟨b, hab, hbn⟩ := Relation.TransGen.head'_iff.mp hreach
      exact List.mem_map.mpr
        ⟨y, (h3 y).mpr ⟨by simp, b, hab, by simp, avoid_nil_iff.mpr hbn⟩, rfl⟩

theorem tc_fold (m : List (Str × List Str)) (fuel : Nat) :
    ∀ (ns : List Str) (P : List (Str × Str)),
      ns.foldl (fun pairs a => closLoop m a fuel [] (chOf m a) pairs) P =
        P ++ ns.flatMap (fun a => ancBlock m a fuel) := by
  intro ns
  induction ns with
  | nil => intro P; simp
  | cons a t ih =>
      intro P
      simp only [List.foldl_cons, List.flatMap_cons]
      rw [closLoop_append, ih]
      simp [ancBlock]

theorem transGen_EdgeM_iff_reach (de : List (Str × List Str)) (a t : Str) :
    Relation.TransGen (EdgeM (tcPrep de).1) a t ↔ Reach de a t := by
  constructor
  · exact Relation.TransGen.mono (fun x y h => (EdgeM_tcPrep de x y).mp h)
  · exact Relation.TransGen.mono (fun x y h => (EdgeM_tcPrep de x y).mpr h)

theorem mem_transitive_closure (de : List (Str × List Str)) (A T : Str) :
    (A, T) ∈ transitive_closure de ↔ Reach de A T := by
  unfold transitive_closure transitive_closure_fuel
  rw [tc_fold]
  simp only [List.nil_append, List.mem_flatMap]
  constructor
  · rintro ⟨a, _, hmem⟩
    obtain ⟨hx, hreach⟩ :=
      ((ancBlock_spec _ a _ (tcFuel_ok _ a)).2 A T).mp hmem
    subst hx
    exact (transGen_EdgeM_iff_reach de A T).mp hreach
  · intro hreach
    have hrm : Relation.TransGen (EdgeM (tcPrep de).1) A T :=
      (transGen_EdgeM_iff_reach de A T).mpr hreach
    have hA : A ∈ (tcPrep de).2 := by
      obtain ⟨b, hab, -⟩ := Relation.TransGen.head'_iff.mp hreach
      obtain ⟨cs, hin, -⟩ := hab
      exact (mem_tcPrep_nodes de A).mpr (Or.inl ⟨cs, hin⟩)
    exact ⟨A, hA,
      ((ancBlock_spec _ A _ (tcFuel_ok _ A)).2 A T).mpr ⟨rfl, hrm⟩⟩

theorem nodup_flat_blocks (m : List (Str × List Str)) (fuel : Nat)
    (hfu : ∀ a, (chOf m a).length + restWeight m [] ≤ fuel) :
    ∀ (ns : List Str), ns.Nodup →
      (ns.flatMap (fun a => ancBlock m a fuel)).Nodup := by
  intro ns
  induction ns with
  | nil => intro _; simp
  | cons a t ih =>
      intro hnd
      rcases List.nodup_cons.mp hnd with ⟨hat, hndt⟩
      simp only [List.flatMap_cons]
      rw [List.nodup_append]
      refine ⟨(ancBlock_spec m a fuel (hfu a)).1, ih hndt, ?_⟩
      intro x hx1 hx2
      obtain ⟨x1, x2⟩ := x
      have hxa : x1 = a :=
        (((ancBlock_spec m a fuel (hfu a)).2 x1 x2).mp hx1).1
      rcases List.mem_flatMap.mp hx2 with ⟨a2, ha2, hmem2⟩
      have hxa2 : x1 = a2 :=
        (((ancBlock_spec m a2 fuel (hfu a2)).2 x1 x2).mp hmem2).1
      exact hat ((hxa ▸ hxa2 : a = a2) ▸ ha2)

theorem nodup_transitive_closure (de : List (Str × List Str)) :
    (transitive_closure de).Nodup := by
  unfold transitive_closure transitive_closure_fuel
  rw [tc_fold]
  simp only [List.nil_append]
  exact nodup_flat_blocks _ _ (tcFuel_ok _) _ (nodup_tcPrep_nodes de)

theorem transitive_closure_fuel_stable (de : List (Str × List Str))
    (f : Nat) (hf : tcFuel (tcPrep de).1 ≤ f) :
    transitive_closure_fuel de f = transitive_closure de := by
  unfold transitive_closure transitive_closure_fuel
  have hgen : ∀ (ns : List Str) (P : List (Str × Str)),
      ns.foldl (fun pairs a =>
        closLoop (tcPrep de).1 a f [] (chOf (tcPrep de).1 a) pairs) P =
      ns.foldl (fun pairs a =>
        closLoop (tcPrep de).1 a (tcFuel (tcPrep de).1) []
          (chOf (tcPrep de).1 a) pairs) P := by
    intro ns
    induction ns with
    | nil => intro P; rfl
    | cons a t ih =>
        intro P
        simp only [List.foldl_cons]
        rw [closLoop_stable (tcPrep de).1 a f (tcFuel (tcPrep de).1) []
          (chOf (tcPrep de).1 a) P
          (le_trans (tcFuel_ok _ a) hf) (tcFuel_ok _ a), ih]
  exact hgen _ []

/-! ### Stanza-dictionary lemmas -/

theorem lookupTag_updTag_self (sz : Stanza) (tag : Str) (v : TagVal) :
    lookupTag (updTag sz tag v) tag = some v := by
  induction sz with
  | nil => simp [updTag, lookupTag]
  | cons kv r ih =>
      obtain ⟨k, w⟩ := kv
      by_cases hk : k = tag
      · simp [updTag, lookupTag, hk]
      · simp [updTag, lookupTag, hk, ih]

theorem lookupTag_updTag_other (sz : Stanza) (tag t2 : Str) (v : TagVal)
    (h : t2 ≠ tag) :
    lookupTag (updTag sz tag v) t2 = lookupTag sz t2 := by
  have h1 : ¬tag = t2 := fun e => h (Eq.symm e)
  induction sz with
  | nil =>
      show lookupTag [(tag, v)] t2 = lookupTag [] t2
      unfold lookupTag
      rw [if_neg h1]
      rfl
  | cons kv r ih =>
      obtain ⟨k, w⟩ := kv
      by_cases hk : k = tag
      · have e1 : updTag ((k, w) :: r) tag v = (k, v) :: r := by
          rw [show updTag ((k, w) :: r) tag v
              = if k = tag then (k, v) :: r else (k, w) :: updTag r tag v
            from rfl, if_pos hk]
        rw [e1]
        unfold lookupTag
        have hkt2 : ¬k = t2 := fun e => h1 (by rw [← hk]; exact e)
        rw [if_neg hkt2, if_neg hkt2]
      · have e1 : updTag ((k, w) :: r) tag v = (k, w) :: updTag r tag v := by
          rw [show updTag ((k, w) :: r) tag v
              = if k = tag then (k, v) :: r else (k, w) :: updTag r tag v
            from rfl, if_neg hk]
        rw [e1]
        unfold lookupTag
        by_cases hk2 : k = t2
        · rw [if_pos hk2, if_pos hk2]
        · rw [if_neg hk2, if_neg hk2]
          exact ih

theorem lookupTag_append_other (sz : Stanza) (tag t2 : Str) (v : TagVal)
    (h : t2 ≠ tag) :
    lookupTag (sz ++ [(tag, v)]) t2 = lookupTag sz t2 := by
  have h1 : ¬tag = t2 := fun e => h (Eq.symm e)
  induction sz with
  | nil =>
      show lookupTag [(tag, v)] t2 = lookupTag [] t2
      unfold lookupTag
      rw [if_neg h1]
      rfl
  | cons kv r ih =>
      obtain ⟨k, w⟩ := kv
      show lookupTag ((k, w) :: (r ++ [(tag, v)])) t2
        = lookupTag ((k, w) :: r) t2
      unfold lookupTag
      by_cases hk2 : k = t2
      · rw [if_pos hk2, if_pos hk2]
      · rw [if_neg hk2, if_neg hk2]
        exact ih

theorem lookupTag_append_none (sz : Stanza) (tag : Str) (v : TagVal)
    (h : lookupTag sz tag = none) :
    lookupTag (sz ++ [(tag, v)]) tag = some v := by
  induction sz with
  | nil => simp [lookupTag]
  | cons kv r ih =>
      obtain ⟨k, w⟩ := kv
      by_cases hk : k = tag
      · exfalso
        unfold lookupTag at h
        rw [if_pos hk] at h
        exact Option.noConfusion h
      · unfold lookupTag at h
        rw [if_neg hk] at h
        show lookupTag ((k, w) :: (r ++ [(tag, v)])) tag = some v
        unfold lookupTag
        rw [if_neg hk]
        exact ih h

theorem getMulti_appendMulti_self (sz : Stanza) (tag : Str) (v : Str) :
    getMulti (appendMulti sz tag v) tag = getMulti sz tag ++ [v] := by
  unfold appendMulti getMulti
  cases hl : lookupTag sz tag with
  | none =>
      rw [lookupTag_append_none sz tag _ hl]
      rfl
  | some tv =>
      cases tv with
      | single w =>
          rw [lookupTag_updTag_self]
          rfl
      | multi vs =>
          rw [lookupTag_updTag_self]

theorem lookupTag_appendMulti_other (sz : Stanza) (tag t2 : Str) (v : Str)
    (h : t2 ≠ tag) :
    lookupTag (appendMulti sz tag v) t2 = lookupTag sz t2 := by
  unfold appendMulti
  cases hl : lookupTag sz tag with
  | none => exact lookupTag_append_other sz tag t2 _ h
  | some tv =>
      cases tv with
      | single w => exact lookupTag_updTag_other sz tag t2 _ h
      | multi vs => exact lookupTag_updTag_other sz tag t2 _ h

/-! ### `parse_obo` structure lemmas -/

theorem hasPre_bracket_term {line : Str}
    (h : hasPre (s2l "[") line = false) :
    hasPre (s2l "[Term]") line = false := by
  cases line with
  | nil => rfl
  | cons c s =>
      have hc : ¬('[' = c) := by
        intro hceq
        rw [show s2l "[" = ['['] from rfl] at h
        simp only [hasPre, Bool.and_eq_false_iff, decide_eq_false_iff_not] at h
        rcases h with h | h
        · exact h hceq
        · exact Bool.noConfusion h
      rw [show s2l "[Term]" = '[' :: s2l "Term]" from rfl]
      simp [hasPre, hc]

theorem procLine_body (sz : Stanza) (out : List Stanza) (line : Str)
    (h : hasPre (s2l "[") line = false) :
    procLine { stanza := some sz, out := out } line
      = { stanza := some (stanzaStep sz line), out := out } := by
  unfold procLine
  rw [hasPre_bracket_term h, h]
  simp

theorem foldl_procLine_open (body : List Str) :
    ∀ (sz : Stanza) (out : List Stanza),
      (∀ L ∈ body, hasPre (s2l "[") L = false) →
      body.foldl procLine { stanza := some sz, out := out }
        = { stanza := some (body.foldl stanzaStep sz), out := out } := by
  induction body with
  | nil => intro sz out _; rfl
  | cons L t ih =>
      intro sz out h
      simp only [List.foldl_cons]
      rw [procLine_body sz out L (h L (List.mem_cons_self _ _))]
      exact ih _ _ (fun L2 hL2 => h L2 (List.mem_cons_of_mem _ hL2))

/-- A `[Term]` marker followed by marker-free body lines parses to exactly
one stanza, the fold of the body. -/
theorem parse_obo_term (body : List Str)
    (hb : ∀ L ∈ body, hasPre (s2l "[") L = false) :
    parse_obo (s2l "[Term]" :: body) = [bodyFold body] := by
  unfold parse_obo bodyFold
  simp only [List.foldl_cons]
  have h0 : procLine { stanza := none, out := [] } (s2l "[Term]")
      = { stanza := some [], out := [] } := by
    rfl
  rw [h0, foldl_procLine_open body [] [] hb]
  rfl

/-! ### Slot evolution under the body fold -/

theorem bodyFold_multi (tag : Str) (htag : tag ∈ multiTags) :
    ∀ (body : List Str) (sz : Stanza),
      getMulti (body.foldl stanzaStep sz) tag
        = getMulti sz tag ++ linesFor tag body := by
  intro body
  induction body with
  | nil => intro sz; simp [linesFor]
  | cons L t ih =>
      intro sz
      simp only [List.foldl_cons]
      cases hpc : partitionColonSpace L with
      | none =>
          have hstep : stanzaStep sz L = sz := by
            unfold stanzaStep
            rw [hpc]
          rw [hstep, ih]
          unfold linesFor
          rw [List.filterMap_cons]
          simp [hpc]
      | some tv =>
          obtain ⟨tg, rawv⟩ := tv
          have hlf : linesFor tag (L :: t)
              = (if tg = tag then [cleanValue rawv] else [])
                  ++ linesFor tag t := by
            unfold linesFor
            rw [List.filterMap_cons, hpc]
            by_cases htg : tg = tag <;> simp [htg, linesFor]
          by_cases htg : tg = tag
          · subst htg
            have hstep : stanzaStep sz L = appendMulti sz tg (cleanValue rawv) := by
              unfold stanzaStep
              rw [hpc]
              simp [htag]
            rw [hstep, ih, getMulti_appendMulti_self, hlf]
            simp
          · have hstep2 : getMulti (stanzaStep sz L) tag = getMulti sz tag := by
              unfold stanzaStep
              rw [hpc]
              by_cases htm : tg ∈ multiTags
              · simp only [if_pos htm]
                unfold getMulti
                rw [lookupTag_appendMulti_other sz tg tag _
                  (fun e => htg e.symm)]
              · simp only [if_neg htm]
                unfold getMulti
                rw [lookupTag_updTag_other sz tg tag _
                  (fun e => htg e.symm)]
            rw [ih, hstep2, hlf]
            simp [htg]

theorem bodyFold_single (tag : Str) (htag : tag ∉ multiTags) :
    ∀ (body : List Str) (sz : Stanza),
      getSingle (body.foldl stanzaStep sz) tag
        = match (linesFor tag body).getLast? with
          | some v => some v
          | none => getSingle sz tag := by
  intro body
  induction body with
  | nil => intro sz; simp [linesFor]
  | cons L t ih =>
      intro sz
      simp only [List.foldl_cons]
      cases hpc : partitionColonSpace L with
      | none =>
          have hstep : stanzaStep sz L = sz := by
            unfold stanzaStep
            rw [hpc]
          have hlf : linesFor tag (L :: t) = linesFor tag t := by
            unfold linesFor
            rw [List.filterMap_cons, hpc]
          rw [hstep, ih, hlf]
      | some tv =>
          obtain ⟨tg, rawv⟩ := tv
          by_cases htg : tg = tag
          · subst htg
            have hstep : stanzaStep sz L
                = updTag sz tg (TagVal.single (cleanValue rawv)) := by
              unfold stanzaStep
              rw [hpc]
              simp [htag]
            have hlf : linesFor tg (L :: t)
                = cleanValue rawv :: linesFor tg t := by
              unfold linesFor
              rw [List.filterMap_cons, hpc]
              simp [linesFor]
            rw [hstep, ih, hlf]
            have hsget : getSingle (updTag sz tg
                (TagVal.single (cleanValue rawv))) tg
                = some (cleanValue rawv) := by
              unfold getSingle
              rw [lookupTag_updTag_self]
            cases hlast : (linesFor tg t).getLast? with
            | none =>
                have ht : linesFor tg t = [] :=
                  List.getLast?_eq_none_iff.mp hlast
                rw [ht]
                simp [hsget]
            | some v =>
                have hcons : (cleanValue rawv :: linesFor tg t).getLast?
                    = some v := by
                  rw [getLast?_some_decomp hlast,
                    show cleanValue rawv ::
                        ((linesFor tg t).dropLast ++ [v])
                      = (cleanValue rawv :: (linesFor tg t).dropLast)
                          ++ [v] from rfl,
                    List.getLast?_concat]
                rw [hcons]
          · have hstep2 : getSingle (stanzaStep sz L) tag
                = getSingle sz tag := by
              unfold stanzaStep
              rw [hpc]
              by_cases htm : tg ∈ multiTags
              · simp only [if_pos htm]
                unfold getSingle
                rw [lookupTag_appendMulti_other sz tg tag _
                  (fun e => htg e.symm)]
              · simp only [if_neg htm]
                unfold getSingle
                rw [lookupTag_updTag_other sz tg tag _
                  (fun e => htg e.symm)]
            have hlf : linesFor tag (L :: t) = linesFor tag t := by
              unfold linesFor
              rw [List.filterMap_cons, hpc]
              simp [htg]
            rw [ih, hstep2, hlf]

/-! ### Structure of `partitionColonSpace` on composed lines -/

theorem pcs_cons2_eq (c d : Char) (r : Str) :
    partitionColonSpace (c :: d :: r)
      = if c = ':' ∧ d = ' ' then some ([], r)
        else (partitionColonSpace (d :: r)).map (fun p => (c :: p.1, p.2)) :=
  rfl

theorem pcs_cons2_none {c d : Char} {r : Str}
    (h : partitionColonSpace (c :: d :: r) = none) :
    ¬(c = ':' ∧ d = ' ') ∧ partitionColonSpace (d :: r) = none := by
  by_cases hc : c = ':' ∧ d = ' '
  · rw [pcs_cons2_eq, if_pos hc] at h
    exact Option.noConfusion h
  · rw [pcs_cons2_eq, if_neg hc] at h
    exact ⟨hc, Option.map_eq_none'.mp h⟩

/-- Splitting a line `pre ++ ": " ++ rest` whose prefix has no `": "`:
the tag is exactly `pre` (the first separator occurrence wins even when
`rest` contains further separators). -/
theorem pcs_some_parts (pre : Str) :
    ∀ (rest : Str), partitionColonSpace pre = none →
      partitionColonSpace (pre ++ ':' :: ' ' :: rest) = some (pre, rest) := by
  induction pre with
  | nil => intro rest _; rfl
  | cons c pre' ih =>
      intro rest h
      cases pre' with
      | nil =>
          have hcond : ¬(c = ':' ∧ ':' = ' ') := by
            rintro ⟨-, h2⟩
            exact absurd h2 (by decide)
          show partitionColonSpace (c :: ':' :: ' ' :: rest) = some ([c], rest)
          rw [pcs_cons2_eq, if_neg hcond]
          rfl
      | cons d pre'' =>
          obtain ⟨hnc, hrest⟩ := pcs_cons2_none (c := c) (d := d) h
          show partitionColonSpace
              (c :: d :: (pre'' ++ ':' :: ' ' :: rest))
            = some (c :: d :: pre'', rest)
          rw [pcs_cons2_eq, if_neg hnc]
          have hih := ih rest hrest
          rw [show (d :: pre'') ++ ':' :: ' ' :: rest
              = d :: (pre'' ++ ':' :: ' ' :: rest) from rfl] at hih
          rw [hih]
          rfl

/-- A line `tag ++ ":" ++ value` with no space after the colon (and no
`": "` inside either part) contains no separator at all. -/
theorem pcs_none_parts (tagp : Str) :
    ∀ (value : Str), partitionColonSpace tagp = none →
      partitionColonSpace value = none → value.head? ≠ some ' ' →
      partitionColonSpace (tagp ++ ':' :: value) = none := by
  induction tagp with
  | nil =>
      intro value _ h2 h3
      cases value with
      | nil => rfl
      | cons v vr =>
          have hcond : ¬(':' = ':' ∧ v = ' ') := by
            rintro ⟨-, hv⟩
            exact h3 (by simp [hv])
          show partitionColonSpace (':' :: v :: vr) = none
          rw [pcs_cons2_eq, if_neg hcond, h2]
          rfl
  | cons c tagp' ih =>
      intro value h1 h2 h3
      cases tagp' with
      | nil =>
          have hcond : ¬(c = ':' ∧ ':' = ' ') := by
            rintro ⟨-, hx⟩
            exact absurd hx (by decide)
          cases value with
          | nil =>
              show partitionColonSpace (c :: ':' :: []) = none
              rw [pcs_cons2_eq, if_neg hcond]
              rfl
          | cons v vr =>
              have hrec := ih (v :: vr) rfl h2 h3
              rw [List.nil_append] at hrec
              show partitionColonSpace (c :: ':' :: v :: vr) = none
              rw [pcs_cons2_eq, if_neg hcond, hrec]
              rfl
      | cons d tagp'' =>
          obtain ⟨hnc, hrest⟩ := pcs_cons2_none h1
          have hih := ih value hrest h2 h3
          show partitionColonSpace (c :: d :: (tagp'' ++ ':' :: value)) = none
          rw [pcs_cons2_eq, if_neg hnc]
          rw [show (d :: tagp'') ++ ':' :: value
              = d :: (tagp'' ++ ':' :: value) from rfl] at hih
          rw [hih]
          rfl

theorem hasPre_bracket_of_head {line : Str} (h : line.head? ≠ some '[') :
    hasPre (s2l "[") line = false := by
  cases line with
  | nil => rfl
  | cons c s =>
      have hc : ¬('[' = c) := fun e => h (by rw [← e]; rfl)
      rw [show s2l "[" = ['['] from rfl]
      simp [hasPre, hc]

theorem linesFor_length (tag : Str) (body : List Str) :
    (linesFor tag body).length = body.countP (isTagLine tag) := by
  induction body with
  | nil => rfl
  | cons L t ih =>
      unfold linesFor at ih ⊢
      rw [List.filterMap_cons, List.countP_cons]
      cases hpc : partitionColonSpace L with
      | none => simp [isTagLine, hpc, ih]
      | some tv =>
          obtain ⟨tg, rawv⟩ := tv
          by_cases htg : tg = tag <;> simp [isTagLine, hpc, htg, ih]

/-! ### `parse_synonym_tag` on shaped values -/

theorem hasPre_self_append (p s : Str) : hasPre p (p ++ s) = true := by
  induction p with
  | nil => rfl
  | cons c p' ih => simp [hasPre, ih]

theorem hasPre_ne_head {c d : Char} (h : ¬(c = d)) (ps s : Str) :
    hasPre (c :: ps) (d :: s) = false := by
  simp [hasPre, h]

theorem findLabel_label (label : Str) :
    '"' ∉ label → '\n' ∉ label →
    ∀ (rest : Str), headWs rest = true →
      findLabel (label ++ '"' :: rest) = some (label, rest) := by
  induction label with
  | nil =>
      intro _ _ rest hws
      show findLabel ('"' :: rest) = some ([], rest)
      simp [findLabel, hws]
  | cons c label' ih =>
      intro hq hn rest hws
      have hcq : ¬(c = '"') := fun e => hq (List.mem_cons.mpr (Or.inl e.symm))
      have hcn : ¬(c = '\n') := fun e => hn (List.mem_cons.mpr (Or.inl e.symm))
      have hq2 : '"' ∉ label' := fun h => hq (List.mem_cons_of_mem _ h)
      have hn2 : '\n' ∉ label' := fun h => hn (List.mem_cons_of_mem _ h)
      show findLabel (c :: (label' ++ '"' :: rest)) = some (c :: label', rest)
      simp [findLabel, hcq, hcn, ih hq2 hn2 rest hws]

/-- The scope alternation on a text beginning with one of the five tokens:
the alternatives have pairwise distinct first letters, so the token itself
is the (first) hit. -/
theorem scopeHit_self (sc : Str) (hsc : sc ∈ scopeTokens) (rest : Str) :
    scopeHit (sc ++ rest) = some sc := by
  simp only [scopeTokens, List.mem_cons, List.mem_singleton] at hsc
  rcases hsc with rfl | rfl | rfl | rfl | rfl | h
  · unfold scopeHit
    rw [hasPre_self_append]
    simp
  · unfold scopeHit
    rw [show s2l "RELATED" ++ rest = 'R' :: (s2l "ELATED" ++ rest) from rfl,
      show s2l "EXACT" = 'E' :: s2l "XACT" from rfl,
      hasPre_ne_head (by decide),
      show ('R' : Char) :: (s2l "ELATED" ++ rest)
        = s2l "RELATED" ++ rest from rfl,
      hasPre_self_append]
    simp
  · unfold scopeHit
    rw [show s2l "NARROW" ++ rest = 'N' :: (s2l "ARROW" ++ rest) from rfl,
      show s2l "EXACT" = 'E' :: s2l "XACT" from rfl,
      hasPre_ne_head (by decide),
      show s2l "RELATED" = 'R' :: s2l "ELATED" from rfl,
      hasPre_ne_head (by decide),
      show ('N' : Char) :: (s2l "ARROW" ++ rest)
        = s2l "NARROW" ++ rest from rfl,
      hasPre_self_append]
    simp
  · unfold scopeHit
    rw [show s2l "BROAD" ++ rest = 'B' :: (s2l "ROAD" ++ rest) from rfl,
      show s2l "EXACT" = 'E' :: s2l "XACT" from rfl,
      hasPre_ne_head (by decide),
      show s2l "RELATED" = 'R' :: s2l "ELATED" from rfl,
      hasPre_ne_head (by decide),
      show s2l "NARROW" = 'N' :: s2l "ARROW" from rfl,
      hasPre_ne_head (by decide),
      show ('B' : Char) :: (s2l "ROAD" ++ rest)
        = s2l "BROAD" ++ rest from rfl,
      hasPre_self_append]
    simp
  · unfold scopeHit
    rw [show s2l "SYNONYM" ++ rest = 'S' :: (s2l "YNONYM" ++ rest) from rfl,
      show s2l "EXACT" = 'E' :: s2l "XACT" from rfl,
      hasPre_ne_head (by decide),
      show s2l "RELATED" = 'R' :: s2l "ELATED" from rfl,
      hasPre_ne_head (by decide),
      show s2l "NARROW" = 'N' :: s2l "ARROW" from rfl,
      hasPre_ne_head (by decide),
      show s2l "BROAD" = 'B' :: s2l "ROAD" from rfl,
      hasPre_ne_head (by decide),
      show ('S' : Char) :: (s2l "YNONYM" ++ rest)
        = s2l "SYNONYM" ++ rest from rfl,
      hasPre_self_append]
    simp
  · cases h

/-- No alternative hits a text whose first character is not a first letter
of any scope token. -/
theorem scopeHit_none_head (c : Char) (t : Str)
    (hE : ¬(c = 'E')) (hR : ¬(c = 'R')) (hN : ¬(c = 'N'))
    (hB : ¬(c = 'B')) (hS : ¬(c = 'S')) :
    scopeHit (c :: t) = none := by
  unfold scopeHit
  rw [show s2l "EXACT" = 'E' :: s2l "XACT" from rfl,
    hasPre_ne_head (fun e => hE e.symm),
    show s2l "RELATED" = 'R' :: s2l "ELATED" from rfl,
    hasPre_ne_head (fun e => hR e.symm),
    show s2l "NARROW" = 'N' :: s2l "ARROW" from rfl,
    hasPre_ne_head (fun e => hN e.symm),
    show s2l "BROAD" = 'B' :: s2l "ROAD" from rfl,
    hasPre_ne_head (fun e => hB e.symm),
    show s2l "SYNONYM" = 'S' :: s2l "YNONYM" from rfl,
    hasPre_ne_head (fun e => hS e.symm)]
  simp

/-! ### The `def`-tag cleanup on shaped values -/

theorem afterQuoteCite_append_false (s : Str) (hb : '[' ∉ s) (t : Str) :
    afterQuoteCite (s ++ '"' :: t) = false := by
  induction s with
  | nil =>
      show afterQuoteCite ('"' :: t) = false
      simp [afterQuoteCite, pyWs]
  | cons c s' ih =>
      have hcb : ¬(c = '[') := fun e => hb (List.mem_cons.mpr (Or.inl e.symm))
      have hb2 : '[' ∉ s' := fun h => hb (List.mem_cons_of_mem _ h)
      show afterQuoteCite (c :: (s' ++ '"' :: t)) = false
      simp [afterQuoteCite, hcb, ih hb2]

theorem bracketBody_append_true (cite : Str) (h1 : ']' ∉ cite)
    (h2 : '\n' ∉ cite) : bracketBody (cite ++ [']']) = true := by
  induction cite with
  | nil => rfl
  | cons c cs ih =>
      have hc1 : ¬(c = ']') := fun e => h1 (List.mem_cons.mpr (Or.inl e.symm))
      have hc2 : ¬(c = '\n') :=
        fun e => h2 (List.mem_cons.mpr (Or.inl e.symm))
      have h1b : ']' ∉ cs := fun h => h1 (List.mem_cons_of_mem _ h)
      have h2b : '\n' ∉ cs := fun h => h2 (List.mem_cons_of_mem _ h)
      show bracketBody (c :: (cs ++ [']'])) = true
      simp [bracketBody, hc1, hc2, ih h1b h2b]

theorem subCite_keep (s : Str) (hq : '"' ∉ s) (q : Str) :
    subCite (s ++ q) = s ++ subCite q := by
  induction s with
  | nil => rfl
  | cons c s' ih =>
      have hcq : ¬(c = '"') := fun e => hq (List.mem_cons.mpr (Or.inl e.symm))
      have hq2 : '"' ∉ s' := fun h => hq (List.mem_cons_of_mem _ h)
      show subCite (c :: (s' ++ q)) = c :: (s' ++ subCite q)
      rw [show subCite (c :: (s' ++ q))
          = if citeAt (c :: (s' ++ q)) then []
            else c :: subCite (s' ++ q) from rfl]
      rw [if_neg (by simp [citeAt, hcq]), ih hq2]

theorem citeAt_cite (cite : Str) (h1 : ']' ∉ cite) (h2 : '\n' ∉ cite) :
    citeAt ('"' :: ' ' :: '[' :: (cite ++ [']'])) = true := by
  simp [citeAt, afterQuoteCite, pyWs, bracketBody_append_true cite h1 h2]

theorem lstripQuote_no_quote (s : Str) (hq : '"' ∉ s) : lstripQuote s = s := by
  cases s with
  | nil => rfl
  | cons c r =>
      have hcq : ¬(c = '"') := fun e => hq (List.mem_cons.mpr (Or.inl e.symm))
      simp [lstripQuote, hcq]

theorem lstripQuote_replicate (j : Nat) (rest : Str) :
    lstripQuote (List.replicate j '"' ++ rest) = lstripQuote rest := by
  induction j with
  | zero => rfl
  | succ j ih =>
      rw [List.replicate_succ]
      show lstripQuote ('"' :: (List.replicate j '"' ++ rest))
        = lstripQuote rest
      simp [lstripQuote, ih]

theorem lstripWs_append_single (l : Str) (x : Char) (hx : pyWs x = false) :
    lstripWs (l ++ [x]) = lstripWs l ++ [x] := by
  induction l with
  | nil => simp [lstripWs, hx]
  | cons c l' ih =>
      show lstripWs (c :: (l' ++ [x])) = lstripWs (c :: l') ++ [x]
      by_cases hc : pyWs c = true
      · simp [lstripWs, hc, ih]
      · simp [lstripWs, hc]

theorem rstripWs_append_single (l : Str) (x : Char) (hx : pyWs x = false) :
    rstripWs (l ++ [x]) = l ++ [x] := by
  unfold rstripWs
  rw [show (l ++ [x]).reverse = x :: l.reverse from by simp]
  rw [show lstripWs (x :: l.reverse) = x :: l.reverse from by
    simp [lstripWs, hx]]
  simp

/-- The full citation-shape computation: on `"label" [cite]` the stored
definition is the trimmed label. -/
theorem cleanDef_cite (label cite : Str) (hq : '"' ∉ label)
    (hb : '[' ∉ label) (h1 : ']' ∉ cite) (h2 : '\n' ∉ cite) :
    cleanDef ('"' :: (label ++ '"' :: ' ' :: '[' :: (cite ++ [']'])))
      = pyStrip label := by
  unfold cleanDef
  have hsub : subCite ('"' :: (label ++ '"' :: ' ' :: '[' :: (cite ++ [']'])))
      = '"' :: label := by
    rw [show subCite ('"' :: (label ++ '"' :: ' ' :: '[' :: (cite ++ [']'])))
        = if citeAt ('"' :: (label ++ '"' :: ' ' :: '[' :: (cite ++ [']'])))
          then []
          else '"' :: subCite (label ++ '"' :: ' ' :: '[' :: (cite ++ [']']))
      from rfl]
    rw [if_neg (by
      simp [citeAt,
        afterQuoteCite_append_false label hb
          (' ' :: '[' :: (cite ++ [']']))])]
    rw [subCite_keep label hq]
    rw [show subCite ('"' :: ' ' :: '[' :: (cite ++ [']']))
        = if citeAt ('"' :: ' ' :: '[' :: (cite ++ [']'])) then []
          else '"' :: subCite (' ' :: '[' :: (cite ++ [']'])) from rfl]
    rw [if_pos (by rw [citeAt_cite cite h1 h2])]
    simp
  rw [hsub]
  rw [show lstripQuote ('"' :: label) = lstripQuote label from by
    simp [lstripQuote]]
  rw [lstripQuote_no_quote label hq]

/-- The no-citation computation: all leading quotes are removed, the
trailing quote survives. -/
theorem cleanDef_no_cite (k : Nat) (label : Str) (hq : '"' ∉ label)
    (hb : '[' ∉ label) (hne : label ≠ []) :
    cleanDef (List.replicate (k + 1) '"' ++ label ++ ['"'])
      = lstripWs label ++ ['"'] := by
  unfold cleanDef
  have hsub : subCite (List.replicate (k + 1) '"' ++ label ++ ['"'])
      = List.replicate (k + 1) '"' ++ label ++ ['"'] := by
    induction k with
    | zero =>
        rw [show List.replicate 1 '"' ++ label ++ ['"']
            = '"' :: (label ++ ['"']) from by simp]
        rw [show subCite ('"' :: (label ++ ['"']))
            = if citeAt ('"' :: (label ++ ['"'])) then []
              else '"' :: subCite (label ++ ['"']) from rfl]
        rw [if_neg (by
          simp [citeAt,
            show label ++ ['"'] = label ++ '"' :: ([] : Str) from rfl,
            afterQuoteCite_append_false label hb ([] : Str)])]
        rw [subCite_keep label hq ['"']]
        rfl
    | succ k ih =>
        rw [show List.replicate (k + 2) '"' ++ label ++ ['"']
            = '"' :: (List.replicate (k + 1) '"' ++ label ++ ['"']) from by
          rw [List.replicate_succ]
          simp]
        rw [show subCite
              ('"' :: (List.replicate (k + 1) '"' ++ label ++ ['"']))
            = if citeAt
                ('"' :: (List.replicate (k + 1) '"' ++ label ++ ['"']))
              then []
              else '"' ::
                subCite (List.replicate (k + 1) '"' ++ label ++ ['"'])
          from rfl]
        rw [if_neg (by
          rw [show List.replicate (k + 1) '"' ++ label ++ ['"']
              = '"' :: (List.replicate k '"' ++ label ++ ['"']) from by
            rw [List.replicate_succ]
            simp]
          simp [citeAt, afterQuoteCite, pyWs])]
        rw [ih]
  rw [hsub]
  rw [show List.replicate (k + 1) '"' ++ label ++ ['"']
      = List.replicate (k + 1) '"' ++ (label ++ ['"']) from by simp]
  rw [lstripQuote_replicate]
  obtain ⟨c, label', rfl⟩ :
      ∃ c label', label = c :: label' := by
    cases label with
    | nil => exact absurd rfl hne
    | cons c l => exact ⟨c, l, rfl⟩
  have hcq : ¬(c = '"') := fun e => hq (List.mem_cons.mpr (Or.inl e.symm))
  rw [show (c :: label') ++ ['"'] = c :: (label' ++ ['"']) from rfl]
  rw [show lstripQuote (c :: (label' ++ ['"']))
      = c :: (label' ++ ['"']) from by simp [lstripQuote, hcq]]
  unfold pyStrip
  rw [show (c :: (label' ++ ['"'])) = (c :: label') ++ ['"'] from rfl]
  rw [lstripWs_append_single _ _ (by simp [pyWs]),
    rstripWs_append_single _ _ (by simp [pyWs])]

/-! ### Edge collection of `build` -/

theorem termEdges_mem (act : List Str) (t : Stanza) (c p r : Str)
    (h : (c, p, r) ∈ termEdges act t) : c = getId t ∧ p ∈ act := by
  unfold termEdges at h
  rcases List.mem_append.mp h with h | h <;>
    rcases List.mem_filterMap.mp h with ⟨raw, hraw, hf⟩
  · cases hsp : pySplit raw with
    | nil =>
        rw [hsp] at hf
        exact Option.noConfusion hf
    | cons p0 rest =>
        rw [hsp] at hf
        dsimp only at hf
        by_cases hin : p0 ∈ act
        · rw [if_pos hin] at hf
          injection hf with hf
          have h1 : getId t = c := congrArg (fun x => x.1) hf
          have h2 : p0 = p := congrArg (fun x => x.2.1) hf
          exact ⟨h1.symm, h2 ▸ hin⟩
        · rw [if_neg hin] at hf
          exact Option.noConfusion hf
  · cases hsp : pySplit raw with
    | nil =>
        rw [hsp] at hf
        exact Option.noConfusion hf
    | cons rel rest =>
        cases rest with
        | nil =>
            rw [hsp] at hf
            exact Option.noConfusion hf
        | cons p0 rest2 =>
            rw [hsp] at hf
            dsimp only at hf
            by_cases hin : p0 ∈ act
            · rw [if_pos hin] at hf
              injection hf with hf
              have h1 : getId t = c := congrArg (fun x => x.1) hf
              have h2 : p0 = p := congrArg (fun x => x.2.1) hf
              exact ⟨h1.symm, h2 ▸ hin⟩
            · rw [if_neg hin] at hf
              exact Option.noConfusion hf

theorem parent_rows_mem (sts : List Stanza) (ns : NS) (c p r : Str)
    (h : (c, p, r) ∈ parent_rows sts ns) :
    p ∈ active_ids sts ∧ ∃ t ∈ activeTerms sts, getId t = c := by
  unfold parent_rows at h
  rcases List.mem_flatMap.mp h with ⟨t, ht, hmem⟩
  have ht2 : t ∈ activeTerms sts := List.mem_of_mem_filter ht
  obtain ⟨hc, hp⟩ := termEdges_mem _ t c p r hmem
  exact ⟨hp, t, ht2, hc.symm⟩

theorem EdgeRel_addChild (m : List (Str × List Str)) (q x p c : Str) :
    EdgeRel (addChild m q x) p c ↔ EdgeRel m p c ∨ (q = p ∧ x = c) := by
  induction m with
  | nil =>
      constructor
      · rintro ⟨cs, hmem, hc⟩
        have heq := List.mem_singleton.mp hmem
        have h1 : p = q := congrArg Prod.fst heq
        have h2 : cs = [x] := congrArg Prod.snd heq
        exact Or.inr ⟨h1.symm, (List.mem_singleton.mp (h2 ▸ hc)).symm⟩
      · rintro (⟨cs, hmem, hc⟩ | ⟨rfl, rfl⟩)
        · cases hmem
        · exact ⟨[x], List.mem_singleton.mpr rfl, List.mem_singleton.mpr rfl⟩
  | cons kv m' ih =>
      obtain ⟨k, vs⟩ := kv
      by_cases hk : k = q
      · subst hk
        rw [show addChild ((k, vs) :: m') k x = (k, vs ++ [x]) :: m' from by
          rw [show addChild ((k, vs) :: m') k x
              = if k = k then (k, vs ++ [x]) :: m'
                else (k, vs) :: addChild m' k x from rfl, if_pos rfl]]
        rw [EdgeRel_cons, EdgeRel_cons]
        simp only [List.mem_append, List.mem_singleton]
        tauto
      · rw [show addChild ((k, vs) :: m') q x
            = (k, vs) :: addChild m' q x from by
          rw [show addChild ((k, vs) :: m') q x
              = if k = q then (k, vs ++ [x]) :: m'
                else (k, vs) :: addChild m' q x from rfl, if_neg hk]]
        rw [EdgeRel_cons, EdgeRel_cons, ih]
        tauto

theorem edgeRel_addChild_fold (rows : List (Str × Str × Str)) :
    ∀ (acc : List (Str × List Str)) (p c : Str),
      EdgeRel (rows.foldl (fun m row => addChild m row.2.1 row.1) acc) p c ↔
        EdgeRel acc p c ∨ ∃ row ∈ rows, row.2.1 = p ∧ row.1 = c := by
  induction rows with
  | nil =>
      intro acc p c
      simp
  | cons row rt ih =>
      intro acc p c
      simp only [List.foldl_cons]
      rw [ih, EdgeRel_addChild]
      constructor
      · rintro ((h | ⟨h1, h2⟩) | ⟨row2, hrow2, h1, h2⟩)
        · exact Or.inl h
        · exact Or.inr ⟨row, List.mem_cons_self _ _, h1, h2⟩
        · exact Or.inr ⟨row2, List.mem_cons_of_mem _ hrow2, h1, h2⟩
      · rintro (h | ⟨row2, hrow2, h1, h2⟩)
        · exact Or.inl (Or.inl h)
        · rcases List.mem_cons.mp hrow2 with heq | hmem
          · subst heq
            exact Or.inl (Or.inr ⟨h1, h2⟩)
          · exact Or.inr ⟨row2, hmem, h1, h2⟩

theorem direct_children_edge (sts : List Stanza) (ns : NS) (p c : Str) :
    EdgeRel (direct_children sts ns) p c ↔
      ∃ r, (c, p, r) ∈ parent_rows sts ns := by
  unfold direct_children
  rw [edgeRel_addChild_fold (parent_rows sts ns) [] p c]
  constructor
  · rintro (⟨cs, hmem, -⟩ | ⟨row, hrow, h1, h2⟩)
    · cases hmem
    · obtain ⟨a, b, d⟩ := row
      dsimp only at h1 h2
      subst h1
      subst h2
      exact ⟨d, hrow⟩
  · rintro ⟨r, hrow⟩
    exact Or.inr ⟨(c, p, r), hrow, rfl, rfl⟩

theorem edge_dc_active (sts : List Stanza) (ns : NS) (p c : Str)
    (h : EdgeRel (direct_children sts ns) p c) :
    p ∈ active_ids sts ∧ c ∈ active_ids sts := by
  obtain ⟨r, hrow⟩ := (direct_children_edge sts ns p c).mp h
  obtain ⟨hp, t, ht, hc⟩ := parent_rows_mem sts ns c p r hrow
  exact ⟨hp, List.mem_map.mpr ⟨t, ht, hc⟩⟩

theorem reach_dc_active (sts : List Stanza) (ns : NS) (a d : Str)
    (h : Reach (direct_children sts ns) a d) :
    a ∈ active_ids sts ∧ d ∈ active_ids sts := by
  induction h with
  | single he => exact edge_dc_active sts ns _ _ he
  | tail _ he ih => exact ⟨ih.1, (edge_dc_active sts ns _ _ he).2⟩

/-! ### Synonym rows of `build` -/

theorem synRowsFor_alt_count (t : Stanza) (alt : Str) :
    occurrences ((getId t, alt, some alt, s2l "EXACT", 1) :
        Str × Str × Option Str × Str × Nat) (synRowsFor t)
      = occurrences alt (getMulti t (s2l "alt_id")) := by
  unfold synRowsFor
  rw [occurrences_append]
  have htext : occurrences ((getId t, alt, some alt, s2l "EXACT", 1) :
      Str × Str × Option Str × Str × Nat)
      ((getMulti t (s2l "synonym")).map (fun raw =>
        ((getId t, (parse_synonym_tag raw).1, none,
          (parse_synonym_tag raw).2.1, 0) :
            Str × Str × Option Str × Str × Nat))) = 0 := by
    apply occurrences_eq_zero_of_not_mem
    intro hmem
    rcases List.mem_map.mp hmem with ⟨raw, -, heq⟩
    have hns : (none : Option Str) = some alt :=
      congrArg (fun x : Str × Str × Option Str × Str × Nat => x.2.2.1) heq
    exact Option.noConfusion hns
  rw [htext, Nat.zero_add]
  have hinj : Function.Injective
      (fun a : Str => ((getId t, a, some a, s2l "EXACT", 1) :
        Str × Str × Option Str × Str × Nat)) := by
    intro a b h
    exact congrArg (fun x : Str × Str × Option Str × Str × Nat => x.2.1) h
  exact occurrences_map_inj hinj alt (getMulti t (s2l "alt_id"))

theorem synRowsFor_alt_mem (t : Stanza) (alt : Str)
    (h : alt ∈ getMulti t (s2l "alt_id")) :
    ((getId t, alt, some alt, s2l "EXACT", 1) :
      Str × Str × Option Str × Str × Nat) ∈ synRowsFor t := by
  unfold synRowsFor
  exact List.mem_append_right _ (List.mem_map.mpr ⟨alt, h, rfl⟩)

/-! ### `parse_synonym_tag` unfolding helpers -/

theorem parse_synonym_tag_quote (rest : Str) :
    parse_synonym_tag ('"' :: rest)
      = match findLabel rest with
        | some lp => (lp.1, (scopeHit (lstripWs lp.2)).getD (s2l "EXACT"), 0)
        | none => ('"' :: rest, s2l "EXACT", 0) := by
  rfl

theorem parse_synonym_tag_not_quote {c : Char} (r : Str) (h : ¬(c = '"')) :
    parse_synonym_tag (c :: r) = (c :: r, s2l "EXACT", 0) := by
  simp [parse_synonym_tag, h]

theorem lstripWs_cons_ws {c : Char} (h : pyWs c = true) (t : Str) :
    lstripWs (c :: t) = lstripWs t := by
  simp [lstripWs, h]

theorem lstripWs_cons_nonws {c : Char} (h : pyWs c = false) (t : Str) :
    lstripWs (c :: t) = c :: t := by
  simp [lstripWs, h]

theorem lstripWs_scope (sc : Str) (hsc : sc ∈ scopeTokens) (X : Str) :
    lstripWs (sc ++ X) = sc ++ X := by
  simp only [scopeTokens, List.mem_cons, List.mem_singleton] at hsc
  rcases hsc with rfl | rfl | rfl | rfl | rfl | h
  · rw [show s2l "EXACT" ++ X = 'E' :: (s2l "XACT" ++ X) from rfl]
    exact lstripWs_cons_nonws (by decide) _
  · rw [show s2l "RELATED" ++ X = 'R' :: (s2l "ELATED" ++ X) from rfl]
    exact lstripWs_cons_nonws (by decide) _
  · rw [show s2l "NARROW" ++ X = 'N' :: (s2l "ARROW" ++ X) from rfl]
    exact lstripWs_cons_nonws (by decide) _
  · rw [show s2l "BROAD" ++ X = 'B' :: (s2l "ROAD" ++ X) from rfl]
    exact lstripWs_cons_nonws (by decide) _
  · rw [show s2l "SYNONYM" ++ X = 'S' :: (s2l "YNONYM" ++ X) from rfl]
    exact lstripWs_cons_nonws (by decide) _
  · cases h

/-! ### Claim theorems -/

/-- C1: for every direct-edge input and every pair of distinct terms A and T
with T reachable from A via one or more direct edges, the pair (A, T)
occurs in the list returned by `transitive_closure` exactly once; every
pair of the output has its second component reachable from its first via at
least one edge; and the output has no duplicates — so, viewed as a set, it
is the transitive closure of the direct-edge relation (irreflexive on the
acyclic inputs the format guarantees). -/
theorem C1_transitive_closure_exact (de : List (Str × List Str)) :
    (∀ A T, A ≠ T → Reach de A T →
      occurrences (A, T) (transitive_closure de) = 1)
    ∧ (∀ A T, ((A, T) ∈ transitive_closure de ↔ Reach de A T))
    ∧ (transitive_closure de).Nodup := by
  refine ⟨fun A T _ hr => ?_,
    fun A T => mem_transitive_closure de A T,
    nodup_transitive_closure de⟩
  exact occurrences_eq_one_of_nodup_mem (nodup_transitive_closure de)
    ((mem_transitive_closure de A T).mpr hr)

/-- Witness for C1 at a two-edge chain: the pair (a, c) is reachable in two
steps and occurs exactly once. -/
theorem C1_witness :
    s2l "a" ≠ s2l "c" ∧
    occurrences ((s2l "a", s2l "c") : Str × Str)
      (transitive_closure [(s2l "a", [s2l "b"]), (s2l "b", [s2l "c"])])
      = 1 := by
  have e1 : EdgeRel [(s2l "a", [s2l "b"]), (s2l "b", [s2l "c"])]
      (s2l "a") (s2l "b") := ⟨[s2l "b"], by decide, by decide⟩
  have e2 : EdgeRel [(s2l "a", [s2l "b"]), (s2l "b", [s2l "c"])]
      (s2l "b") (s2l "c") := ⟨[s2l "c"], by decide, by decide⟩
  exact ⟨by decide,
    (C1_transitive_closure_exact
      [(s2l "a", [s2l "b"]), (s2l "b", [s2l "c"])]).1
      (s2l "a") (s2l "c") (by decide)
      (Relation.TransGen.tail (Relation.TransGen.single e1) e2)⟩

/-- C9: `transitive_closure` terminates on every finite input, cyclic
inputs included: the visited set bounds each traversal by the fuel
`tcFuel`, so the fuelled computation is stable — any fuel at least the
bound gives the same result as the bound itself. -/
theorem C9_transitive_closure_terminates (de : List (Str × List Str))
    (f : Nat) (hf : tcFuel (tcPrep de).1 ≤ f) :
    transitive_closure_fuel de f = transitive_closure de :=
  transitive_closure_fuel_stable de f hf

/-- Witness for C9 on a cyclic input: the bound holds at fuel 10 and the
run is stable there. -/
theorem C9_witness :
    tcFuel (tcPrep [(s2l "a", [s2l "b"]), (s2l "b", [s2l "a"])]).1 ≤ 10 ∧
    transitive_closure_fuel [(s2l "a", [s2l "b"]), (s2l "b", [s2l "a"])] 10
      = transitive_closure [(s2l "a", [s2l "b"]), (s2l "b", [s2l "a"])] :=
  ⟨by decide,
    C9_transitive_closure_terminates
      [(s2l "a", [s2l "b"]), (s2l "b", [s2l "a"])] 10 (by decide)⟩

/-- C7: parsing a `[Term]` stanza, a multi-valued tag's slot is the list of
that tag's cleaned values in file order (N occurrences give exactly N
values), while a single-valued tag's slot is its last occurrence's value. -/
theorem C7_multi_tag_values (body : List Str) (tag stag : Str)
    (hb : ∀ L ∈ body, hasPre (s2l "[") L = false)
    (htag : tag ∈ multiTags) (hstag : stag ∉ multiTags) :
    parse_obo (s2l "[Term]" :: body) = [bodyFold body]
    ∧ getMulti (bodyFold body) tag = linesFor tag body
    ∧ (linesFor tag body).length = body.countP (isTagLine tag)
    ∧ getSingle (bodyFold body) stag = (linesFor stag body).getLast? := by
  refine ⟨parse_obo_term body hb, ?_, linesFor_length tag body, ?_⟩
  · unfold bodyFold
    rw [bodyFold_multi tag htag body []]
    rfl
  · unfold bodyFold
    rw [bodyFold_single stag hstag body []]
    cases hl : (linesFor stag body).getLast? with
    | none => rfl
    | some v => rfl

/-- Witness for C7: two synonym lines and two name lines in one stanza;
synonym collects both values in order, name keeps the last. -/
theorem C7_witness :
    parse_obo (s2l "[Term]" ::
        [s2l "name: first", s2l "synonym: a", s2l "name: second",
         s2l "synonym: b ! x"])
      = [bodyFold [s2l "name: first", s2l "synonym: a", s2l "name: second",
          s2l "synonym: b ! x"]]
    ∧ getMulti (bodyFold [s2l "name: first", s2l "synonym: a",
          s2l "name: second", s2l "synonym: b ! x"]) (s2l "synonym")
      = linesFor (s2l "synonym")
          [s2l "name: first", s2l "synonym: a", s2l "name: second",
           s2l "synonym: b ! x"]
    ∧ (linesFor (s2l "synonym")
          [s2l "name: first", s2l "synonym: a", s2l "name: second",
           s2l "synonym: b ! x"]).length
      = [s2l "name: first", s2l "synonym: a", s2l "name: second",
         s2l "synonym: b ! x"].countP (isTagLine (s2l "synonym"))
    ∧ getSingle (bodyFold [s2l "name: first", s2l "synonym: a",
          s2l "name: second", s2l "synonym: b ! x"]) (s2l "name")
      = (linesFor (s2l "name")
          [s2l "name: first", s2l "synonym: a", s2l "name: second",
           s2l "synonym: b ! x"]).getLast? :=
  C7_multi_tag_values
    [s2l "name: first", s2l "synonym: a", s2l "name: second",
     s2l "synonym: b ! x"]
    (s2l "synonym") (s2l "name") (by decide) (by decide) (by decide)

/-- C10: inside an open `[Term]` stanza a body line is stored only when it
contains the two-character separator ": "; a `tag:value` line with no space
after the colon is silently ignored, and a stored line's tag is everything
before the first ": " occurrence. -/
theorem C10_colon_space_split (sz : Stanza) (out : List Stanza)
    (tagp value rest : Str)
    (h1 : partitionColonSpace tagp = none)
    (h2 : partitionColonSpace value = none)
    (h3 : value.head? ≠ some ' ')
    (h4 : tagp.head? ≠ some '[') :
    procLine { stanza := some sz, out := out } (tagp ++ ':' :: value)
      = { stanza := some sz, out := out }
    ∧ procLine { stanza := some sz, out := out }
        (tagp ++ ':' :: ' ' :: rest)
      = { stanza := some (if tagp ∈ multiTags
            then appendMulti sz tagp (cleanValue rest)
            else updTag sz tagp (TagVal.single (cleanValue rest))),
          out := out } := by
  have hhead : ∀ (v : Str), (tagp ++ ':' :: v).head? ≠ some '[' := by
    intro v
    cases tagp with
    | nil => simp
    | cons c tp => simpa using h4
  constructor
  · rw [procLine_body sz out _ (hasPre_bracket_of_head (hhead value))]
    have hst : stanzaStep sz (tagp ++ ':' :: value) = sz := by
      unfold stanzaStep
      rw [pcs_none_parts tagp value h1 h2 h3]
    rw [hst]
  · rw [procLine_body sz out _ (hasPre_bracket_of_head (hhead (' ' :: rest)))]
    have hst : stanzaStep sz (tagp ++ ':' :: ' ' :: rest)
        = if tagp ∈ multiTags then appendMulti sz tagp (cleanValue rest)
          else updTag sz tagp (TagVal.single (cleanValue rest)) := by
      unfold stanzaStep
      rw [pcs_some_parts tagp rest h1]
    rw [hst]

/-- Witness for C10: the no-space line `xref:abc` is ignored and the spaced
line `xref: GO:1` is stored under tag `xref`. -/
theorem C10_witness :
    procLine { stanza := some ([] : Stanza), out := [] }
        (s2l "xref" ++ ':' :: s2l "abc")
      = { stanza := some ([] : Stanza), out := [] }
    ∧ procLine { stanza := some ([] : Stanza), out := [] }
        (s2l "xref" ++ ':' :: ' ' :: s2l "GO:1")
      = { stanza := some (if s2l "xref" ∈ multiTags
            then appendMulti [] (s2l "xref") (cleanValue (s2l "GO:1"))
            else updTag [] (s2l "xref")
              (TagVal.single (cleanValue (s2l "GO:1")))),
          out := [] } :=
  C10_colon_space_split [] [] (s2l "xref") (s2l "abc") (s2l "GO:1")
    (by decide) (by decide) (by decide) (by decide)

/-- C2 counterexample: the scope token SYNONYM is returned verbatim by
`parse_synonym_tag`, not normalised to EXACT as the claim states. -/
theorem C2_synonym_scope_counterexample :
    parse_synonym_tag (s2l "\"x\" SYNONYM []")
      = (s2l "x", s2l "SYNONYM", 0)
    ∧ s2l "SYNONYM" ≠ s2l "EXACT" := by
  exact ⟨by decide, by decide⟩

/-- C2 (amended): after the whitespace that follows the closing quote, the
parsed scope is the first of EXACT/RELATED/NARROW/BROAD/SYNONYM that is a
prefix of the remaining text, whatever follows it — so SYNONYM is passed
through verbatim, and an unrecognised token that extends a known one
(e.g. RELATEDISH) yields that known scope (the five alternatives have
pairwise distinct first letters, so the prefix hit is the token's own
alternative); with the scope absent (a bracket follows), or a token
starting with none of the alternatives' first letters, the scope is EXACT;
a value not starting with a quote is returned whole as the label with
scope EXACT. -/
theorem C2_synonym_scope_amended (label tok : Str) (c : Char)
    (hq : '"' ∉ label) (hn : '\n' ∉ label) :
    (∀ sc ∈ scopeTokens, ∀ suf : Str,
      parse_synonym_tag
        ('"' :: (label ++ '"' :: ' ' :: (sc ++ suf)))
        = (label, sc, 0))
    ∧ (∀ xref : Str, parse_synonym_tag
        ('"' :: (label ++ '"' :: ' ' :: '[' :: (xref ++ [']'])))
      = (label, s2l "EXACT", 0))
    ∧ (pyWs c = false →
      ¬(c = 'E') → ¬(c = 'R') → ¬(c = 'N') → ¬(c = 'B') → ¬(c = 'S') →
      parse_synonym_tag ('"' :: (label ++ '"' :: ' ' :: c :: tok))
        = (label, s2l "EXACT", 0))
    ∧ (∀ raw : Str, raw.head? ≠ some '"' →
      parse_synonym_tag raw = (raw, s2l "EXACT", 0)) := by
  refine ⟨fun sc hsc suf => ?_, fun xref => ?_, fun hcw hE hR hN hB hS => ?_,
    fun raw hr => ?_⟩
  · rw [parse_synonym_tag_quote,
      findLabel_label label hq hn (' ' :: (sc ++ suf))
        (by simp [headWs, pyWs])]
    dsimp only
    rw [lstripWs_cons_ws (by decide),
      lstripWs_scope sc hsc, scopeHit_self sc hsc]
    rfl
  · rw [parse_synonym_tag_quote,
      findLabel_label label hq hn (' ' :: '[' :: (xref ++ [']']))
        (by simp [headWs, pyWs])]
    dsimp only
    rw [lstripWs_cons_ws (by decide), lstripWs_cons_nonws (by decide),
      scopeHit_none_head '[' _ (by decide) (by decide) (by decide)
        (by decide) (by decide)]
    rfl
  · rw [parse_synonym_tag_quote,
      findLabel_label label hq hn (' ' :: c :: tok)
        (by simp [headWs, pyWs])]
    dsimp only
    rw [lstripWs_cons_ws (by decide), lstripWs_cons_nonws hcw,
      scopeHit_none_head c tok hE hR hN hB hS]
    rfl
  · cases raw with
    | nil => rfl
    | cons c0 r =>
        have hc : ¬(c0 = '"') := fun e => hr (by rw [e]; rfl)
        exact parse_synonym_tag_not_quote r hc

/-- Witness for C2 (amended) at the spec's scenario value
`"cell growth" NARROW []` and at the extension token `RELATEDISH`, whose
parsed scope is the prefix hit RELATED. -/
theorem C2_witness :
    parse_synonym_tag
      ('"' :: (s2l "cell growth" ++ '"' :: ' ' ::
        (s2l "NARROW" ++ s2l " []")))
      = (s2l "cell growth", s2l "NARROW", 0)
    ∧ parse_synonym_tag
        ('"' :: (s2l "x" ++ '"' :: ' ' :: (s2l "RELATED" ++ s2l "ISH []")))
      = (s2l "x", s2l "RELATED", 0) :=
  ⟨(C2_synonym_scope_amended (s2l "cell growth") [] 'Q'
      (by decide) (by decide)).1 (s2l "NARROW") (by decide) (s2l " []"),
   (C2_synonym_scope_amended (s2l "x") [] 'Q'
      (by decide) (by decide)).1 (s2l "RELATED") (by decide)
      (s2l "ISH []")⟩

/-- C3 counterexample: on a `def` value with no citation suffix the
trailing quote is kept (`"abc"` becomes `abc"`), and `lstrip` removes every
leading quote, not just one (`""abc` becomes `abc`). -/
theorem C3_def_cleanup_counterexample :
    cleanDef (s2l "\"abc\"") = s2l "abc\""
    ∧ (s2l "abc\"").getLast? = some '"'
    ∧ cleanDef (s2l "\"\"abc") = s2l "abc" :=
  ⟨by decide, by decide, by decide⟩

/-- C3 (amended): a trailing citation suffix `" [...]` is removed together
with its closing quote and the result is trimmed; when no citation suffix
is present the trailing quote is retained; every leading quote (not just
one) is stripped; a term with no `def` tag yields no definition. -/
theorem C3_def_cleanup_amended (label cite : Str) (k : Nat) (t : Stanza)
    (hq : '"' ∉ label) (hb : '[' ∉ label) (h1 : ']' ∉ cite)
    (h2 : '\n' ∉ cite) (hne : label ≠ [])
    (hd : lookupTag t (s2l "def") = none) :
    cleanDef ('"' :: (label ++ '"' :: ' ' :: '[' :: (cite ++ [']'])))
      = pyStrip label
    ∧ cleanDef (List.replicate (k + 1) '"' ++ label ++ ['"'])
      = lstripWs label ++ ['"']
    ∧ defnOf t = none := by
  refine ⟨cleanDef_cite label cite hq hb h1 h2,
    cleanDef_no_cite k label hq hb hne, ?_⟩
  unfold defnOf getSingle
  rw [hd]

/-- Witness for C3 (amended) at `"abc" [GOC:ai]`, `""abc"`, and a stanza
with no `def` tag. -/
theorem C3_witness :
    cleanDef ('"' :: (s2l "abc" ++ '"' :: ' ' :: '[' ::
        (s2l "GOC:ai" ++ [']'])))
      = pyStrip (s2l "abc")
    ∧ cleanDef (List.replicate 2 '"' ++ s2l "abc" ++ ['"'])
      = lstripWs (s2l "abc") ++ ['"']
    ∧ defnOf [] = none :=
  C3_def_cleanup_amended (s2l "abc") (s2l "GOC:ai") 1 []
    (by decide) (by decide) (by decide) (by decide) (by decide) rfl

/-- C4 counterexample: three positional arguments (argv length 4) hit the
`len(sys.argv) != 3` guard and exit with the usage message, not the normal
run that two arguments produce. -/
theorem C4_cli_argc_counterexample :
    cliMain [s2l "prog", s2l "in.obo", s2l "out.sqlite3", s2l "extra"]
      = CliAction.usage
    ∧ cliMain [s2l "prog", s2l "in.obo", s2l "out.sqlite3"]
      = CliAction.run (s2l "in.obo") (s2l "out.sqlite3")
    ∧ CliAction.usage
      ≠ CliAction.run (s2l "in.obo") (s2l "out.sqlite3") :=
  ⟨rfl, rfl, by decide⟩

/-- C4 (amended): every argument count other than exactly two positional
arguments — zero, one, three or more — prints the usage message and exits
non-zero (`sys.exit` with a string exits with status 1); exactly two
proceed into `build`. -/
theorem C4_cli_argc_amended (argv : List Str) :
    (cliMain argv = CliAction.usage ↔ argv.length ≠ 3)
    ∧ (∀ pg i o, cliMain [pg, i, o] = CliAction.run i o) := by
  constructor
  · cases argv with
    | nil => simp [cliMain]
    | cons a t =>
        cases t with
        | nil => simp [cliMain]
        | cons b t2 =>
            cases t2 with
            | nil => simp [cliMain]
            | cons c t3 =>
                cases t3 with
                | nil => simp [cliMain]
                | cons d t4 =>
                    simp only [cliMain, List.length_cons]
                    constructor
                    · intro _
                      omega
                    · intro _
                      trivial
  · intro pg i o
    rfl

/-- Witness for C4 (amended) at a one-argument call. -/
theorem C4_witness :
    (cliMain [s2l "prog", s2l "only.obo"] = CliAction.usage ↔
      ([s2l "prog", s2l "only.obo"] : List Str).length ≠ 3)
    ∧ (∀ pg i o, cliMain [pg, i, o] = CliAction.run i o) :=
  C4_cli_argc_amended [s2l "prog", s2l "only.obo"]

/-- C5: an `is_a` or `relationship` entry whose parent identifier is not in
the active-identifier set contributes no parent row, no adjacency edge, and
no closure pair: every emitted row's parent is active, every adjacency edge
joins active identifiers, and both components of every closure pair are
active identifiers; the entry is skipped without error. -/
theorem C5_inactive_parent_edges_dropped (sts : List Stanza) (ns : NS) :
    (∀ c p r, (c, p, r) ∈ parent_rows sts ns → p ∈ active_ids sts)
    ∧ (∀ p c, EdgeRel (direct_children sts ns) p c →
        p ∈ active_ids sts ∧ c ∈ active_ids sts)
    ∧ (∀ a d, (a, d) ∈ transitive_closure (direct_children sts ns) →
        a ∈ active_ids sts ∧ d ∈ active_ids sts) :=
  ⟨fun c p r h => (parent_rows_mem sts ns c p r h).1,
    fun p c h => edge_dc_active sts ns p c h,
    fun a d h => reach_dc_active sts ns a d
      ((mem_transitive_closure _ a d).mp h)⟩

/-- Witness for C5: with GO:0000001 and GO:0000002 active and GO:0000002
also pointing at the unknown GO:0000009, the emitted row for GO:0000001 has
an active parent. -/
theorem C5_witness :
    (s2l "GO:0000001") ∈ active_ids
      [[(s2l "id", TagVal.single (s2l "GO:0000001")),
        (s2l "namespace", TagVal.single (s2l "biological_process"))],
       [(s2l "id", TagVal.single (s2l "GO:0000002")),
        (s2l "namespace", TagVal.single (s2l "biological_process")),
        (s2l "is_a",
          TagVal.multi [s2l "GO:0000001", s2l "GO:0000009"])]] :=
  (C5_inactive_parent_edges_dropped
    [[(s2l "id", TagVal.single (s2l "GO:0000001")),
      (s2l "namespace", TagVal.single (s2l "biological_process"))],
     [(s2l "id", TagVal.single (s2l "GO:0000002")),
      (s2l "namespace", TagVal.single (s2l "biological_process")),
      (s2l "is_a",
        TagVal.multi [s2l "GO:0000001", s2l "GO:0000009"])]] NS.BP).1
    (s2l "GO:0000002") (s2l "GO:0000001") (s2l "is_a") (by decide)

/-- C6: a stanza whose `is_obsolete` tag is exactly "true" goes to the
obsolete set and never to the active output; any other value or absence
keeps it active; the active-identifier set only contains identifiers of
non-obsolete stanzas; and every parent row and closure pair involves only
active terms, so an obsolete stanza contributes no edge and no closure
pair regardless of its own is_a/relationship tags. -/
theorem C6_obsolete_partition (sts : List Stanza) :
    (∀ s ∈ sts, goIdCheck s = true →
      getSingle s (s2l "is_obsolete") = some (s2l "true") →
        s ∈ obsoleteTerms sts ∧ s ∉ activeTerms sts)
    ∧ (∀ s ∈ sts, goIdCheck s = true →
      getSingle s (s2l "is_obsolete") ≠ some (s2l "true") →
        s ∈ activeTerms sts ∧ s ∉ obsoleteTerms sts)
    ∧ (∀ i ∈ active_ids sts, ∃ t ∈ sts, goIdCheck t = true ∧
        getSingle t (s2l "is_obsolete") ≠ some (s2l "true") ∧ getId t = i)
    ∧ (∀ ns c p r, (c, p, r) ∈ parent_rows sts ns →
        (∃ t ∈ activeTerms sts, getId t = c) ∧ p ∈ active_ids sts)
    ∧ (∀ ns a d, (a, d) ∈ transitive_closure (direct_children sts ns) →
        a ∈ active_ids sts ∧ d ∈ active_ids sts) := by
  refine ⟨fun s hs hgo hobs => ⟨?_, ?_⟩, fun s hs hgo hobs => ⟨?_, ?_⟩,
    fun i hi => ?_, fun ns c p r h => ?_, fun ns a d h => ?_⟩
  · exact List.mem_filter.mpr ⟨hs, by simp [hgo, isObsolete, hobs]⟩
  · intro hmem
    have hpred := (List.mem_filter.mp hmem).2
    simp [hgo, isObsolete, hobs] at hpred
  · exact List.mem_filter.mpr ⟨hs, by simp [hgo, isObsolete, hobs]⟩
  · intro hmem
    have hpred := (List.mem_filter.mp hmem).2
    simp [hgo, isObsolete, hobs] at hpred
  · unfold active_ids at hi
    rcases List.mem_map.mp hi with ⟨t, htf, heq⟩
    rcases List.mem_filter.mp htf with ⟨hts, hpred⟩
    rcases Bool.and_eq_true_iff.mp hpred with ⟨hgo, hno⟩
    refine ⟨t, hts, hgo, ?_, heq⟩
    simpa [isObsolete] using hno
  · obtain ⟨hp, t, ht, hc⟩ := parent_rows_mem sts ns c p r h
    exact ⟨⟨t, ht, hc⟩, hp⟩
  · exact reach_dc_active sts ns a d ((mem_transitive_closure _ a d).mp h)

/-- Witness for C6: an obsolete stanza (with its own is_a tag) lands in the
obsolete set and not in the active set. -/
theorem C6_witness :
    [(s2l "id", TagVal.single (s2l "GO:0000003")),
     (s2l "is_obsolete", TagVal.single (s2l "true")),
     (s2l "is_a", TagVal.multi [s2l "GO:0000001"])] ∈ obsoleteTerms
      [[(s2l "id", TagVal.single (s2l "GO:0000003")),
        (s2l "is_obsolete", TagVal.single (s2l "true")),
        (s2l "is_a", TagVal.multi [s2l "GO:0000001"])]]
    ∧ [(s2l "id", TagVal.single (s2l "GO:0000003")),
       (s2l "is_obsolete", TagVal.single (s2l "true")),
       (s2l "is_a", TagVal.multi [s2l "GO:0000001"])] ∉ activeTerms
      [[(s2l "id", TagVal.single (s2l "GO:0000003")),
        (s2l "is_obsolete", TagVal.single (s2l "true")),
        (s2l "is_a", TagVal.multi [s2l "GO:0000001"])]] :=
  (C6_obsolete_partition
    [[(s2l "id", TagVal.single (s2l "GO:0000003")),
      (s2l "is_obsolete", TagVal.single (s2l "true")),
      (s2l "is_a", TagVal.multi [s2l "GO:0000001"])]]).1
    [(s2l "id", TagVal.single (s2l "GO:0000003")),
     (s2l "is_obsolete", TagVal.single (s2l "true")),
     (s2l "is_a", TagVal.multi [s2l "GO:0000001"])]
    (by decide) (by decide) (by decide)

/-- C8: each `alt_id` value of an active term yields exactly one synonym
row with the alt identifier as both the label and the secondary column,
scope EXACT and like_go_id 1; the statement carries no hypothesis on the
alt identifier's membership in the active-identifier set, because the code
never checks it (unlike is_a/relationship parents). -/
theorem C8_alt_id_rows (sts : List Stanza) (t : Stanza) (alt : Str)
    (ht : t ∈ activeTerms sts) (halt : alt ∈ getMulti t (s2l "alt_id")) :
    ((getId t, alt, some alt, s2l "EXACT", 1) :
        Str × Str × Option Str × Str × Nat) ∈ syn_rows sts
    ∧ occurrences ((getId t, alt, some alt, s2l "EXACT", 1) :
        Str × Str × Option Str × Str × Nat) (synRowsFor t)
      = occurrences alt (getMulti t (s2l "alt_id")) :=
  ⟨List.mem_flatMap.mpr ⟨t, ht, synRowsFor_alt_mem t alt halt⟩,
    synRowsFor_alt_count t alt⟩

/-- Witness for C8 with an alt identifier (GO:0000099) that is NOT in the
active-identifier set: the row is emitted regardless. -/
theorem C8_witness :
    ((s2l "GO:0000042", s2l "GO:0000099", some (s2l "GO:0000099"),
        s2l "EXACT", 1) :
      Str × Str × Option Str × Str × Nat) ∈ syn_rows
      [[(s2l "id", TagVal.single (s2l "GO:0000042")),
        (s2l "alt_id", TagVal.multi [s2l "GO:0000099"])]]
    ∧ occurrences ((s2l "GO:0000042", s2l "GO:0000099",
        some (s2l "GO:0000099"), s2l "EXACT", 1) :
          Str × Str × Option Str × Str × Nat)
        (synRowsFor [(s2l "id", TagVal.single (s2l "GO:0000042")),
          (s2l "alt_id", TagVal.multi [s2l "GO:0000099"])])
      = occurrences (s2l "GO:0000099")
          (getMulti [(s2l "id", TagVal.single (s2l "GO:0000042")),
            (s2l "alt_id", TagVal.multi [s2l "GO:0000099"])]
            (s2l "alt_id")) :=
  C8_alt_id_rows
    [[(s2l "id", TagVal.single (s2l "GO:0000042")),
      (s2l "alt_id", TagVal.multi [s2l "GO:0000099"])]]
    [(s2l "id", TagVal.single (s2l "GO:0000042")),
     (s2l "alt_id", TagVal.multi [s2l "GO:0000099"])]
    (s2l "GO:0000099") (by decide) (by decide)

end GoDb
